/-
Verification of the ts-source-to-json-schema compiler pipeline
(tokenizer, parser, emitter, import extractor, module resolver).

The TypeScript sources are shallowly embedded: JS strings become `String`
or `List Char`, JS numbers become `ℚ`, JS objects (`Record<string, T>`,
`Map`) become association lists with JavaScript's replace-in-place-or-append
update semantics, thrown exceptions become `Except`, and unbounded
recursion is given an explicit fuel argument (`none` = would not have
returned at this depth); fuel-sufficiency lemmas discharge the fuel where
a theorem needs a definite result.
-/
import Mathlib

set_option maxRecDepth 10000

/-! # JSON value model

The emitter's output type `JSONSchema` is a JavaScript object with
schema-specific fields plus `[key: string]: unknown`.  We model the whole
value space as a JSON tree; object fields are an association list in
insertion order (all keys written by the emitter are non-numeric strings,
so JavaScript's insertion-order iteration applies). -/

inductive Json where
  | str : String → Json
  | num : ℚ → Json
  | jbool : Bool → Json
  | null : Json
  | arr : List Json → Json
  | obj : List (String × Json) → Json

/-- JS property read `o[k]`: first (unique) binding of `k`.  Also models
`Map.get`. -/
def jsGet {α : Type} (kvs : List (String × α)) (k : String) : Option α :=
  match kvs with
  | [] => none
  | (k', v) :: rest => if k' = k then some v else jsGet rest k

/-- JS property write `o[k] = v`: overwrite in place, else append
(JavaScript objects and `Map`s keep the original insertion position of a
key that is re-assigned). -/
def jsSet {α : Type} (kvs : List (String × α)) (k : String) (v : α) : List (String × α) :=
  match kvs with
  | [] => [(k, v)]
  | (k', v') :: rest => if k' = k then (k', v) :: rest else (k', v') :: jsSet rest k v

/-- JS `delete o[k]`. -/
def jsDelete {α : Type} (kvs : List (String × α)) (k : String) : List (String × α) :=
  match kvs with
  | [] => []
  | (k', v') :: rest => if k' = k then rest else (k', v') :: jsDelete rest k

/-- Field read on a `Json` that is expected to be an object
(`schema.foo` in TS); non-objects have no fields. -/
def Json.getField : Json → String → Option Json
  | .obj kvs, k => jsGet kvs k
  | _, _ => none

/-- Field write on a `Json` object (`schema.foo = v` in TS). -/
def Json.setField : Json → String → Json → Json
  | .obj kvs, k, v => .obj (jsSet kvs k v)
  | j, _, _ => j

theorem jsGet_jsSet_self {α : Type} (kvs : List (String × α)) (k : String) (v : α) :
    jsGet (jsSet kvs k v) k = some v := by
  induction kvs with
  | nil => simp [jsSet, jsGet]
  | cons hd tl ih =>
    obtain ⟨k', v'⟩ := hd
    by_cases h : k' = k <;> simp [jsSet, jsGet, h, ih]

theorem jsGet_jsSet_other {α : Type} (kvs : List (String × α)) (k k' : String) (v : α)
    (h : k' ≠ k) : jsGet (jsSet kvs k v) k' = jsGet kvs k' := by
  induction kvs with
  | nil => simp [jsSet, jsGet, Ne.symm h]
  | cons hd tl ih =>
    obtain ⟨k₀, v₀⟩ := hd
    by_cases h0 : k₀ = k <;> by_cases h1 : k₀ = k' <;>
      simp_all [jsSet, jsGet]

theorem jsGet_jsDelete_self {α : Type} (kvs : List (String × α)) (k : String)
    (hk : (kvs.map Prod.fst).Nodup) : jsGet (jsDelete kvs k) k = none := by
  induction kvs with
  | nil => simp [jsDelete, jsGet]
  | cons hd tl ih =>
    obtain ⟨k', v'⟩ := hd
    simp only [List.map_cons, List.nodup_cons] at hk
    by_cases h : k' = k
    · subst h
      simp only [jsDelete, if_pos rfl]
      -- k' does not occur among tl's keys
      clear ih
      induction tl with
      | nil => simp [jsGet]
      | cons hd2 tl2 ih2 =>
        obtain ⟨k2, v2⟩ := hd2
        simp only [List.map_cons, List.mem_cons, List.nodup_cons] at hk
        have hne : k2 ≠ k' := fun h => hk.1 (Or.inl h.symm)
        simp only [jsGet, if_neg hne]
        exact ih2 ⟨fun hm => hk.1 (Or.inr hm), hk.2.2⟩
    · simp only [jsDelete, if_neg h, jsGet, if_neg h]
      exact ih hk.2

/-! # Tokenizer (src/tokenizer.ts)

The source string is modelled as `List Char`; positions are 1-based
`line`/`col` exactly as in `tokenize`.  Reading helpers return the
consumed value, the remaining characters and the updated position. -/

inductive TokType where
  | keyword | primitive | identifier | string | number | punctuation | jsdoc | newline | eof
deriving DecidableEq, Repr

structure Tok where
  type : TokType
  value : String
  line : Nat
  col : Nat
deriving DecidableEq, Repr

def KEYWORDS : List String :=
  ["interface", "type", "export", "extends", "enum", "const", "readonly",
   "from", "as", "import"]

def PRIMITIVES : List String :=
  ["string", "number", "boolean", "null", "undefined",
   "any", "unknown", "never", "void", "object", "bigint",
   "true", "false"]

/-- JS string helpers, written over the character list so that they are
structurally recursive (and therefore compute inside the kernel): trim,
lower-casing and single-character split, with JS semantics. -/
def trimChars (cs : List Char) : List Char :=
  ((cs.dropWhile Char.isWhitespace).reverse.dropWhile Char.isWhitespace).reverse

/-- `s.trim()`. -/
def trimS (s : String) : String := String.mk (trimChars s.toList)

/-- `s.toLowerCase()` (ASCII, as the tag values here are). -/
def lowerS (s : String) : String := String.mk (s.toList.map Char.toLower)

/-- `s.split(sep)` for a one-character separator. -/
def splitOnChar (sep : Char) : List Char → List (List Char)
  | [] => [[]]
  | c :: rest =>
    let r := splitOnChar sep rest
    if c = sep then [] :: r
    else
      match r with
      | g :: gs => (c :: g) :: gs
      | [] => [[c]]

def splitS (sep : Char) (s : String) : List String :=
  (splitOnChar sep s.toList).map String.mk

def isPunctCh (c : Char) : Bool := "\x7b\x7d()[]:;,?|&=<>.*".toList.contains c

def isWsNoNl (c : Char) : Bool := c = ' ' || c = '\t' || c = '\r'

def isDigitCh (c : Char) : Bool := '0' ≤ c && c ≤ '9'

def isWordStart (c : Char) : Bool :=
  ('a' ≤ c && c ≤ 'z') || ('A' ≤ c && c ≤ 'Z') || c = '_' || c = '$'

def isWordCh (c : Char) : Bool := isWordStart c || isDigitCh c

def isNumCh (c : Char) : Bool := isDigitCh c || c = '.'

/-- `advance()`'s position update for one consumed character. -/
def advPos (c : Char) (line col : Nat) : Nat × Nat :=
  if c = '\n' then (line + 1, 1) else (line, col + 1)

/-- `skipWhitespace()`: spaces, tabs, CR (never newline, so `col` only grows). -/
def skipWs : List Char → Nat → Nat → List Char × Nat × Nat
  | c :: cs, l, co =>
    if isWsNoNl c then skipWs cs l (co + 1) else (c :: cs, l, co)
  | [], l, co => ([], l, co)

/-- Result of a reading helper: consumed value, rest, new position. -/
structure RdRes where
  val : List Char
  rest : List Char
  line : Nat
  col : Nat

/-- Greedy scan while `p` holds (the bodies of `readWord` / `readNumber`). -/
def takeWhileCh (p : Char → Bool) : List Char → Nat → Nat → RdRes
  | c :: cs, l, co =>
    if p c then
      let r := takeWhileCh p cs (advPos c l co).1 (advPos c l co).2
      ⟨c :: r.val, r.rest, r.line, r.col⟩
    else ⟨[], c :: cs, l, co⟩
  | [], l, co => ⟨[], [], l, co⟩

/-- `readString` after the opening quote was consumed.  A backslash
consumes the next character into the value; a backslash at the very end
of the input makes JS append `undefined` to the value string (modelled
verbatim). -/
def readStrBody (quote : Char) : List Char → Nat → Nat → RdRes
  | [], l, co => ⟨[], [], l, co⟩
  | c :: cs, l, co =>
    if c = quote then ⟨[], cs, (advPos c l co).1, (advPos c l co).2⟩
    else if c = '\\' then
      match cs with
      | [] => ⟨"undefined".toList, [], l, co + 2⟩
      | e :: cs' =>
        let p1 := advPos c l co
        let p2 := advPos e p1.1 p1.2
        let r := readStrBody quote cs' p2.1 p2.2
        ⟨e :: r.val, r.rest, r.line, r.col⟩
    else
      let p := advPos c l co
      let r := readStrBody quote cs p.1 p.2
      ⟨c :: r.val, r.rest, r.line, r.col⟩

/-- Body of `readJSDoc` / `readBlockComment`: collect until `*/` (or EOF);
the guard is JS's `peek() === "*" && peek(1) === "/"`. -/
def readUntilStarSlash : List Char → Nat → Nat → RdRes
  | [], l, co => ⟨[], [], l, co⟩
  | c :: cs, l, co =>
    if c = '*' ∧ cs.head? = some '/' then ⟨[], cs.tail, l, co + 2⟩
    else
      let p := advPos c l co
      let r := readUntilStarSlash cs p.1 p.2
      ⟨c :: r.val, r.rest, r.line, r.col⟩

/-- `readLineComment`: skip to (but not past) the next newline. -/
def readLineCm : List Char → Nat → Nat → RdRes
  | [], l, co => ⟨[], [], l, co⟩
  | c :: cs, l, co =>
    if c = '\n' then ⟨[], c :: cs, l, co⟩
    else
      let r := readLineCm cs l (co + 1)
      ⟨c :: r.val, r.rest, r.line, r.col⟩

theorem skipWs_rest_le (cs : List Char) (l co : Nat) :
    (skipWs cs l co).1.length ≤ cs.length := by
  induction cs generalizing co with
  | nil => simp [skipWs]
  | cons c cs ih =>
    by_cases h : isWsNoNl c
    · simp only [skipWs, h, if_true]
      exact le_trans (ih _) (Nat.le_succ _)
    · simp [skipWs, h]

theorem takeWhileCh_rest_le (p : Char → Bool) (cs : List Char) (l co : Nat) :
    (takeWhileCh p cs l co).rest.length ≤ cs.length := by
  induction cs generalizing l co with
  | nil => simp [takeWhileCh]
  | cons c cs ih =>
    by_cases h : p c
    · simp only [takeWhileCh, h, if_true]
      exact le_trans (ih _ _) (Nat.le_succ _)
    · simp [takeWhileCh, h]

theorem readStrBody_rest_le_aux (q : Char) (n : Nat) :
    ∀ (cs : List Char), cs.length ≤ n → ∀ (l co : Nat),
      (readStrBody q cs l co).rest.length ≤ cs.length := by
  induction n with
  | zero =>
    intro cs hcs l co
    have : cs = [] := List.length_eq_zero.mp (Nat.le_zero.mp hcs)
    subst this; simp [readStrBody]
  | succ n ih =>
    intro cs hcs l co
    match cs with
    | [] => simp [readStrBody]
    | c :: cs' =>
      by_cases h1 : c = q
      · subst h1
        rw [readStrBody.eq_def]
        simp
      · by_cases h2 : c = '\\'
        · subst h2
          match cs' with
          | [] => simp [readStrBody, h1]
          | e :: cs'' =>
            have hle : cs''.length ≤ n := by
              simp only [List.length_cons] at hcs; omega
            have hrec := ih cs'' hle
              (advPos e (advPos '\\' l co).1 (advPos '\\' l co).2).1
              (advPos e (advPos '\\' l co).1 (advPos '\\' l co).2).2
            rw [readStrBody.eq_def]
            simp only [h1, if_false, if_pos rfl, if_true, List.length_cons]
            omega
        · have hle : cs'.length ≤ n := by
            simp only [List.length_cons] at hcs; omega
          have hrec := ih cs' hle (advPos c l co).1 (advPos c l co).2
          rw [readStrBody.eq_def]
          simp only [h1, h2, if_false, List.length_cons]
          omega

theorem readStrBody_rest_le (q : Char) (cs : List Char) (l co : Nat) :
    (readStrBody q cs l co).rest.length ≤ cs.length :=
  readStrBody_rest_le_aux q cs.length cs le_rfl l co

theorem readUntilStarSlash_rest_le (cs : List Char) (l co : Nat) :
    (readUntilStarSlash cs l co).rest.length ≤ cs.length := by
  induction cs generalizing l co with
  | nil => simp [readUntilStarSlash]
  | cons c cs ih =>
    by_cases h : c = '*' ∧ cs.head? = some '/'
    · simp only [readUntilStarSlash, if_pos h, List.length_cons]
      have : cs.tail.length = cs.length - 1 := List.length_tail cs
      omega
    · simp only [readUntilStarSlash, if_neg h, List.length_cons]
      have := ih (advPos c l co).1 (advPos c l co).2
      omega

theorem readLineCm_rest_le (cs : List Char) (l co : Nat) :
    (readLineCm cs l co).rest.length ≤ cs.length := by
  induction cs generalizing co with
  | nil => simp [readLineCm]
  | cons c cs ih =>
    by_cases h : c = '\n'
    · simp [readLineCm, h]
    · simp only [readLineCm, h, if_false]
      exact le_trans (ih _) (Nat.le_succ _)

/-- Template-literal body (backtick branch): read to the closing backtick,
no escape handling. -/
def readTemplBody : List Char → Nat → Nat → RdRes
  | [], l, co => ⟨[], [], l, co⟩
  | c :: cs, l, co =>
    if c = '`' then ⟨[], cs, l, co + 1⟩
    else
      let p := advPos c l co
      let r := readTemplBody cs p.1 p.2
      ⟨c :: r.val, r.rest, r.line, r.col⟩

theorem readTemplBody_rest_le (cs : List Char) (l co : Nat) :
    (readTemplBody cs l co).rest.length ≤ cs.length := by
  induction cs generalizing l co with
  | nil => simp [readTemplBody]
  | cons c cs ih =>
    by_cases h : c = '`'
    · simp [readTemplBody, h]
    · simp only [readTemplBody, h, if_false, List.length_cons]
      have := ih (advPos c l co).1 (advPos c l co).2
      omega

theorem takeWhileCh_rest_le_strong (p : Char → Bool) (c : Char) (cs : List Char)
    (l co : Nat) (h : p c = true) :
    (takeWhileCh p (c :: cs) l co).rest.length ≤ cs.length := by
  simp only [takeWhileCh, h, if_true]
  exact takeWhileCh_rest_le p cs _ _

/-- One post-whitespace iteration of the `while` loop of `tokenize`:
given the current character and the rest of the input, produce the token
this iteration pushes (if any), the remaining input and the new position.
Every branch mirrors the corresponding `if` in `tokenize`. -/
def tstepCore (c : Char) (rest : List Char) (l1 c1 : Nat) :
    Option Tok × List Char × Nat × Nat :=
  if c = '\n' then
    (some ⟨.newline, "\n", l1, c1⟩, rest, l1 + 1, 1)
  else if c = '/' ∧ rest.head? = some '*' ∧ rest.tail.head? = some '*' ∧
          rest.tail.tail.head? ≠ some '/' then
    let r := readUntilStarSlash rest.tail.tail l1 (c1 + 3)
    (some ⟨.jsdoc, trimS (String.mk r.val), l1, c1⟩, r.rest, r.line, r.col)
  else if c = '/' ∧ rest.head? = some '*' then
    let r := readUntilStarSlash rest.tail l1 (c1 + 2)
    (none, r.rest, r.line, r.col)
  else if c = '/' ∧ rest.head? = some '/' then
    let r := readLineCm rest.tail l1 (c1 + 2)
    (none, r.rest, r.line, r.col)
  else if c = '"' ∨ c = '\'' then
    let r := readStrBody c rest l1 (c1 + 1)
    (some ⟨.string, String.mk r.val, l1, c1⟩, r.rest, r.line, r.col)
  else if c = '`' then
    let r := readTemplBody rest l1 (c1 + 1)
    (some ⟨.string, String.mk r.val, l1, c1⟩, r.rest, r.line, r.col)
  else if isDigitCh c then
    let r := takeWhileCh isNumCh (c :: rest) l1 c1
    (some ⟨.number, String.mk r.val, l1, c1⟩, r.rest, r.line, r.col)
  else if c = '-' ∧ (rest.head?.map isDigitCh).getD false then
    let r := takeWhileCh isNumCh rest l1 (c1 + 1)
    (some ⟨.number, String.mk ('-' :: r.val), l1, c1⟩, r.rest, r.line, r.col)
  else if isWordStart c then
    let r := takeWhileCh isWordCh (c :: rest) l1 c1
    let w := String.mk r.val
    (some (if PRIMITIVES.contains w then ⟨.primitive, w, l1, c1⟩
           else if KEYWORDS.contains w then ⟨.keyword, w, l1, c1⟩
           else ⟨.identifier, w, l1, c1⟩), r.rest, r.line, r.col)
  else if isPunctCh c then
    (some ⟨.punctuation, String.singleton c, l1, c1⟩, rest, l1, c1 + 1)
  else
    (none, rest, (advPos c l1 c1).1, (advPos c l1 c1).2)

theorem tstepCore_rest_le (c : Char) (rest : List Char) (l1 c1 : Nat) :
    (tstepCore c rest l1 c1).2.1.length ≤ rest.length := by
  have t1 : rest.tail.length ≤ rest.length := by
    have := List.length_tail rest; omega
  have t2 : rest.tail.tail.length ≤ rest.length := by
    have h := List.length_tail rest.tail; omega
  by_cases h1 : c = '\n'
  · simp only [tstepCore, if_pos h1]
    exact le_rfl
  · simp only [tstepCore, if_neg h1]
    by_cases h2 : c = '/' ∧ rest.head? = some '*' ∧ rest.tail.head? = some '*' ∧
        rest.tail.tail.head? ≠ some '/'
    · simp only [if_pos h2]
      exact le_trans (readUntilStarSlash_rest_le _ _ _) t2
    · simp only [if_neg h2]
      by_cases h3 : c = '/' ∧ rest.head? = some '*'
      · simp only [if_pos h3]
        exact le_trans (readUntilStarSlash_rest_le _ _ _) t1
      · simp only [if_neg h3]
        by_cases h4 : c = '/' ∧ rest.head? = some '/'
        · simp only [if_pos h4]
          exact le_trans (readLineCm_rest_le _ _ _) t1
        · simp only [if_neg h4]
          by_cases h5 : c = '"' ∨ c = '\''
          · simp only [if_pos h5]
            exact readStrBody_rest_le c rest l1 (c1 + 1)
          · simp only [if_neg h5]
            by_cases h6 : c = '`'
            · simp only [if_pos h6]
              exact readTemplBody_rest_le rest l1 (c1 + 1)
            · simp only [if_neg h6]
              by_cases h7 : isDigitCh c
              · simp only [if_pos h7]
                exact takeWhileCh_rest_le_strong isNumCh c rest l1 c1
                  (by simp [isNumCh, h7])
              · simp only [if_neg h7]
                by_cases h8 : c = '-' ∧ (rest.head?.map isDigitCh).getD false
                · simp only [if_pos h8]
                  exact takeWhileCh_rest_le isNumCh rest l1 (c1 + 1)
                · simp only [if_neg h8]
                  by_cases h9 : isWordStart c
                  · simp only [if_pos h9]
                    exact takeWhileCh_rest_le_strong isWordCh c rest l1 c1
                      (by simp [isWordCh, h9])
                  · simp only [if_neg h9]
                    by_cases h10 : isPunctCh c
                    · simp only [if_pos h10]
                      exact le_rfl
                    · simp only [if_neg h10]
                      exact le_rfl

/-- The `while (i < source.length)` loop of `tokenize`, one iteration per
recursive call, followed by the final `eof` push.  JS recursion is
unbounded; the fuel argument only bounds the iteration count and
`tokenize` below passes enough fuel for any input (each iteration consumes
at least one character), which `tokLoopF_spec_aux` proves. -/
def tokLoopF : Nat → List Char → Nat → Nat → List Tok
  | 0, _, _, _ => []
  | fuel + 1, cs, l, co =>
    match skipWs cs l co with
    | (cs1, l1, c1) =>
      match cs1 with
      | [] => [⟨.eof, "", l1, c1⟩]
      | c :: rest =>
        match tstepCore c rest l1 c1 with
        | (some t, cs2, l2, c2) => t :: tokLoopF fuel cs2 l2 c2
        | (none, cs2, l2, c2) => tokLoopF fuel cs2 l2 c2

/-- `tokenize(source)` (JS iterates UTF-16 code units; we model the string
as its character sequence, which agrees on all claim-relevant inputs). -/
def tokenize (s : String) : List Tok := tokLoopF (s.toList.length + 1) s.toList 1 1

/-! ## Tokenizer invariants (for the robustness claim) -/

/-- Order on `(line, col)` positions: stream order in the source text. -/
def posLE (p q : Nat × Nat) : Prop :=
  p.1 < q.1 ∨ (p.1 = q.1 ∧ p.2 ≤ q.2)

theorem posLE_refl (p : Nat × Nat) : posLE p p := Or.inr ⟨rfl, le_rfl⟩

theorem posLE_trans {p q r : Nat × Nat} (h1 : posLE p q) (h2 : posLE q r) :
    posLE p r := by
  rcases h1 with h1 | ⟨e1, c1⟩ <;> rcases h2 with h2 | ⟨e2, c2⟩
  · exact Or.inl (lt_trans h1 h2)
  · exact Or.inl (e2 ▸ h1)
  · exact Or.inl (e1 ▸ h2)
  · exact Or.inr ⟨e1.trans e2, c1.trans c2⟩

theorem posLE_col {l co co' : Nat} (h : co ≤ co') : posLE (l, co) (l, co') :=
  Or.inr ⟨rfl, h⟩

theorem posLE_advPos (c : Char) (l co : Nat) :
    posLE (l, co) (advPos c l co) := by
  unfold advPos
  split
  · exact Or.inl (Nat.lt_succ_self l)
  · exact Or.inr ⟨rfl, Nat.le_succ co⟩

theorem skipWs_pos (cs : List Char) (l co : Nat) :
    (skipWs cs l co).2.1 = l ∧ co ≤ (skipWs cs l co).2.2 := by
  induction cs generalizing co with
  | nil => simp [skipWs]
  | cons c cs ih =>
    by_cases h : isWsNoNl c
    · simp only [skipWs, h, if_true]
      exact ⟨(ih (co + 1)).1, le_trans (Nat.le_succ co) (ih (co + 1)).2⟩
    · simp [skipWs, h]

theorem takeWhileCh_pos (p : Char → Bool) (cs : List Char) (l co : Nat) :
    posLE (l, co) ((takeWhileCh p cs l co).line, (takeWhileCh p cs l co).col) := by
  induction cs generalizing l co with
  | nil => exact posLE_refl _
  | cons c cs ih =>
    by_cases h : p c
    · simp only [takeWhileCh, h, if_true]
      exact posLE_trans (posLE_advPos c l co) (ih _ _)
    · simp only [takeWhileCh, h, if_false]
      exact posLE_refl _

theorem readStrBody_pos_aux (q : Char) (n : Nat) :
    ∀ (cs : List Char), cs.length ≤ n → ∀ (l co : Nat),
      posLE (l, co) ((readStrBody q cs l co).line, (readStrBody q cs l co).col) := by
  induction n with
  | zero =>
    intro cs hcs l co
    have : cs = [] := List.length_eq_zero.mp (Nat.le_zero.mp hcs)
    subst this
    exact posLE_refl _
  | succ n ih =>
    intro cs hcs l co
    match cs with
    | [] => exact posLE_refl _
    | c :: cs' =>
      by_cases h1 : c = q
      · subst h1
        rw [readStrBody.eq_def]
        simp only [if_pos rfl]
        exact posLE_advPos _ l co
      · by_cases h2 : c = '\\'
        · subst h2
          match cs' with
          | [] =>
            rw [readStrBody.eq_def]
            simp only [h1, if_false, if_pos rfl, if_true]
            exact posLE_col (by omega)
          | e :: cs'' =>
            rw [readStrBody.eq_def]
            simp only [h1, if_false, if_pos rfl, if_true]
            refine posLE_trans (posLE_advPos '\\' l co) ?_
            refine posLE_trans (posLE_advPos e _ _) ?_
            exact ih cs'' (by simp only [List.length_cons] at hcs; omega) _ _
        · rw [readStrBody.eq_def]
          simp only [h1, h2, if_false]
          refine posLE_trans (posLE_advPos c l co) ?_
          exact ih cs' (by simp only [List.length_cons] at hcs; omega) _ _

theorem readStrBody_pos (q : Char) (cs : List Char) (l co : Nat) :
    posLE (l, co) ((readStrBody q cs l co).line, (readStrBody q cs l co).col) :=
  readStrBody_pos_aux q cs.length cs le_rfl l co

theorem readUntilStarSlash_pos (cs : List Char) (l co : Nat) :
    posLE (l, co)
      ((readUntilStarSlash cs l co).line, (readUntilStarSlash cs l co).col) := by
  induction cs generalizing l co with
  | nil => exact posLE_refl _
  | cons c cs ih =>
    by_cases h : c = '*' ∧ cs.head? = some '/'
    · simp only [readUntilStarSlash, if_pos h]
      exact posLE_col (by omega)
    · simp only [readUntilStarSlash, if_neg h]
      exact posLE_trans (posLE_advPos c l co) (ih _ _)

theorem readLineCm_pos (cs : List Char) (l co : Nat) :
    posLE (l, co) ((readLineCm cs l co).line, (readLineCm cs l co).col) := by
  induction cs generalizing co with
  | nil => exact posLE_refl _
  | cons c cs ih =>
    by_cases h : c = '\n'
    · simp only [readLineCm, h, if_pos rfl]
      exact posLE_refl _
    · simp only [readLineCm, h, if_false]
      exact posLE_trans (posLE_col (Nat.le_succ co)) (ih _)

theorem readTemplBody_pos (cs : List Char) (l co : Nat) :
    posLE (l, co) ((readTemplBody cs l co).line, (readTemplBody cs l co).col) := by
  induction cs generalizing l co with
  | nil => exact posLE_refl _
  | cons c cs ih =>
    by_cases h : c = '`'
    · simp only [readTemplBody, if_pos h]
      exact posLE_col (Nat.le_succ co)
    · simp only [readTemplBody, if_neg h]
      exact posLE_trans (posLE_advPos c l co) (ih _ _)

/-- What one loop iteration guarantees: the position advances in stream
order, and an emitted token sits exactly at the post-whitespace position
and is never `eof`. -/
theorem tstepCore_spec (c : Char) (rest : List Char) (l1 c1 : Nat) :
    posLE (l1, c1) (tstepCore c rest l1 c1).2.2 ∧
    (∀ t, (tstepCore c rest l1 c1).1 = some t →
      t.type ≠ .eof ∧ t.line = l1 ∧ t.col = c1) := by
  by_cases h1 : c = '\n'
  · simp only [tstepCore, if_pos h1]
    refine ⟨Or.inl (Nat.lt_succ_self l1), ?_⟩
    rintro t ⟨rfl⟩
    exact ⟨by simp, rfl, rfl⟩
  · simp only [tstepCore, if_neg h1]
    by_cases h2 : c = '/' ∧ rest.head? = some '*' ∧ rest.tail.head? = some '*' ∧
        rest.tail.tail.head? ≠ some '/'
    · simp only [if_pos h2]
      refine ⟨posLE_trans (posLE_col (by omega)) (readUntilStarSlash_pos _ _ _), ?_⟩
      rintro t ⟨rfl⟩
      exact ⟨by simp, rfl, rfl⟩
    · simp only [if_neg h2]
      by_cases h3 : c = '/' ∧ rest.head? = some '*'
      · simp only [if_pos h3]
        refine ⟨posLE_trans (posLE_col (by omega)) (readUntilStarSlash_pos _ _ _), ?_⟩
        rintro t ⟨⟩
      · simp only [if_neg h3]
        by_cases h4 : c = '/' ∧ rest.head? = some '/'
        · simp only [if_pos h4]
          refine ⟨posLE_trans (posLE_col (by omega)) (readLineCm_pos _ _ _), ?_⟩
          rintro t ⟨⟩
        · simp only [if_neg h4]
          by_cases h5 : c = '"' ∨ c = '\''
          · simp only [if_pos h5]
            refine ⟨posLE_trans (posLE_col (by omega)) (readStrBody_pos _ _ _ _), ?_⟩
            rintro t ⟨rfl⟩
            exact ⟨by simp, rfl, rfl⟩
          · simp only [if_neg h5]
            by_cases h6 : c = '`'
            · simp only [if_pos h6]
              refine ⟨posLE_trans (posLE_col (by omega)) (readTemplBody_pos _ _ _), ?_⟩
              rintro t ⟨rfl⟩
              exact ⟨by simp, rfl, rfl⟩
            · simp only [if_neg h6]
              by_cases h7 : isDigitCh c
              · simp only [if_pos h7]
                refine ⟨takeWhileCh_pos _ _ _ _, ?_⟩
                rintro t ⟨rfl⟩
                exact ⟨by simp, rfl, rfl⟩
              · simp only [if_neg h7]
                by_cases h8 : c = '-' ∧ (rest.head?.map isDigitCh).getD false
                · simp only [if_pos h8]
                  refine ⟨posLE_trans (posLE_col (by omega)) (takeWhileCh_pos _ _ _ _), ?_⟩
                  rintro t ⟨rfl⟩
                  exact ⟨by simp, rfl, rfl⟩
                · simp only [if_neg h8]
                  by_cases h9 : isWordStart c
                  · simp only [if_pos h9]
                    refine ⟨takeWhileCh_pos _ _ _ _, ?_⟩
                    rintro t ⟨rfl⟩
                    refine ⟨?_, ?_, ?_⟩ <;> split <;> simp_all <;> split <;> simp_all
                  · simp only [if_neg h9]
                    by_cases h10 : isPunctCh c
                    · simp only [if_pos h10]
                      refine ⟨posLE_col (Nat.le_succ c1), ?_⟩
                      rintro t ⟨rfl⟩
                      exact ⟨by simp, rfl, rfl⟩
                    · simp only [if_neg h10]
                      exact ⟨posLE_advPos c l1 c1, by rintro t ⟨⟩⟩

/-- Combined loop invariant: with sufficient fuel (more than the number of
remaining characters) the loop never hits the fuel bound; every produced
token sits at or after the entry position, positions are monotone in
stream order, and the output is a list of non-`eof` tokens followed by
exactly one `eof`. -/
theorem tokLoopF_spec_aux (fuel : Nat) :
    ∀ (cs : List Char), cs.length < fuel → ∀ (l co : Nat),
    (∀ t ∈ tokLoopF fuel cs l co, posLE (l, co) (t.line, t.col)) ∧
    List.Chain' (fun a b : Tok => posLE (a.line, a.col) (b.line, b.col))
      (tokLoopF fuel cs l co) ∧
    ∃ ts pl pc, tokLoopF fuel cs l co = ts ++ [⟨.eof, "", pl, pc⟩] ∧
      ∀ t ∈ ts, t.type ≠ TokType.eof := by
  induction fuel with
  | zero =>
    intro cs hcs
    omega
  | succ fuel ih =>
    intro cs hcs l co
    rcases hskip : skipWs cs l co with ⟨cs1, l1, c1⟩
    have hsk1 := skipWs_pos cs l co
    have hsk2 := skipWs_rest_le cs l co
    rw [hskip] at hsk1 hsk2
    simp only at hsk1 hsk2
    have hP0 : posLE (l, co) (l1, c1) := by
      rcases hsk1 with ⟨rfl, hco⟩
      exact posLE_col hco
    match cs1, hskip with
    | [], hskip =>
      rw [tokLoopF, hskip]
      dsimp only
      refine ⟨?_, by simp, [], l1, c1, rfl, by simp⟩
      intro t ht
      simp only [List.mem_singleton] at ht
      subst ht
      exact hP0
    | c :: rest, hskip =>
      have hlen0 : rest.length + 1 ≤ cs.length := by
        simpa using hsk2
      rcases hstep : tstepCore c rest l1 c1 with ⟨topt, cs2, l2, c2⟩
      have hspec := tstepCore_spec c rest l1 c1
      have hlen := tstepCore_rest_le c rest l1 c1
      rw [hstep] at hspec hlen
      simp only at hspec hlen
      have hrec := ih cs2 (by omega) l2 c2
      have hP1 : posLE (l, co) (l2, c2) := posLE_trans hP0 hspec.1
      match topt, hstep with
      | none, hstep =>
        rw [tokLoopF, hskip]
        dsimp only
        rw [hstep]
        dsimp only
        refine ⟨?_, hrec.2.1, hrec.2.2⟩
        intro t ht
        exact posLE_trans hP1 (hrec.1 t ht)
      | some t, hstep =>
        rw [tokLoopF, hskip]
        dsimp only
        rw [hstep]
        dsimp only
        obtain ⟨htype, hline, hcol⟩ := hspec.2 t rfl
        refine ⟨?_, ?_, ?_⟩
        · intro t2 ht2
          rcases List.mem_cons.mp ht2 with rfl | hmem
          · rw [hline, hcol]; exact hP0
          · exact posLE_trans hP1 (hrec.1 t2 hmem)
        · rw [List.chain'_cons']
          refine ⟨?_, hrec.2.1⟩
          intro b hb
          have hbmem : b ∈ tokLoopF fuel cs2 l2 c2 := List.mem_of_mem_head? hb
          rw [hline, hcol]
          exact posLE_trans hspec.1 (hrec.1 b hbmem)
        · obtain ⟨ts, pl, pc, heq, hts⟩ := hrec.2.2
          refine ⟨t :: ts, pl, pc, by rw [heq]; rfl, ?_⟩
          intro t2 ht2
          rcases List.mem_cons.mp ht2 with rfl | hmem
          · exact htype
          · exact hts t2 hmem

/-! # AST (src/ast.ts)

`InterfaceDeclaration.extends` is a Lean keyword, hence `extendsList`.
Modelled from the spec: §3 gives Interface an "optional list of `TypeNode`
for `extends` clauses" and every declaration carries `tags`; the `ast.ts`
excerpt in the snapshot is an earlier revision (`extends?: string[]`, no
declaration tags) that is inconsistent with `emitter.ts`'s `emitInterface`
(which pattern-matches extends elements as `TypeNode`s, and reads
`decl.tags`) and with the repository's test suite, while the current
`parser.ts`/`ast.ts` are not in the snapshot.  All remaining structure is
taken verbatim from the `ast.ts` excerpt. -/

mutual

inductive TypeNode where
  | primitive (value : String)
  | literal_string (value : String)
  | literal_number (value : ℚ)
  | literal_boolean (value : Bool)
  | object (properties : List PropertyNode) (indexSignature : Option IndexSignatureNode)
  | array (element : TypeNode)
  | tuple (elements : List TupleElement)
  | union (members : List TypeNode)
  | intersection (members : List TypeNode)
  | reference (name : String) (typeArgs : Option (List TypeNode))
  | parenthesized (inner : TypeNode)
  | template_literal (parts : List (String ⊕ TypeNode))
  | record (keyType : TypeNode) (valueType : TypeNode)
  | mapped (keyName : String) (constraint : TypeNode) (valueType : TypeNode)
      (optional : Option Bool)

inductive PropertyNode where
  | mk (name : String) (type : TypeNode) (optional : Bool) (readonly : Bool)
      (description : Option String) (tags : Option (List (String × String)))

inductive IndexSignatureNode where
  | mk (keyType : TypeNode) (valueType : TypeNode)

inductive TupleElement where
  | mk (type : TypeNode) (optional : Bool) (label : Option String) (rest : Bool)

end

def PropertyNode.name : PropertyNode → String
  | ⟨n, _, _, _, _, _⟩ => n

def PropertyNode.type : PropertyNode → TypeNode
  | ⟨_, t, _, _, _, _⟩ => t

def PropertyNode.optional : PropertyNode → Bool
  | ⟨_, _, o, _, _, _⟩ => o

def PropertyNode.readonly : PropertyNode → Bool
  | ⟨_, _, _, r, _, _⟩ => r

def PropertyNode.description : PropertyNode → Option String
  | ⟨_, _, _, _, d, _⟩ => d

def PropertyNode.tags : PropertyNode → Option (List (String × String))
  | ⟨_, _, _, _, _, t⟩ => t

def IndexSignatureNode.keyType : IndexSignatureNode → TypeNode
  | ⟨k, _⟩ => k

def IndexSignatureNode.valueType : IndexSignatureNode → TypeNode
  | ⟨_, v⟩ => v

def TupleElement.type : TupleElement → TypeNode
  | ⟨t, _, _, _⟩ => t

def TupleElement.optional : TupleElement → Bool
  | ⟨_, o, _, _⟩ => o

def TupleElement.rest : TupleElement → Bool
  | ⟨_, _, _, r⟩ => r

/-- An enum member's value: string or number. -/
inductive EnumVal where
  | str (s : String)
  | num (n : ℚ)
deriving DecidableEq

structure EnumMember where
  name : String
  value : EnumVal

inductive Declaration where
  | interface (name : String) (extendsList : Option (List TypeNode))
      (properties : List PropertyNode) (indexSignature : Option IndexSignatureNode)
      (description : Option String) (tags : Option (List (String × String)))
      (exported : Bool)
  | type_alias (name : String) (type : TypeNode) (description : Option String)
      (tags : Option (List (String × String))) (exported : Bool)
  | enum (name : String) (members : List EnumMember) (description : Option String)
      (tags : Option (List (String × String))) (exported : Bool)

def Declaration.name : Declaration → String
  | .interface n _ _ _ _ _ _ => n
  | .type_alias n _ _ _ _ => n
  | .enum n _ _ _ _ => n

/-! # JSDoc payload parsing (Parser.parseJSDocComment) -/

/-- `Number(text)` for the numeric strings this pipeline builds (an
optional minus, digits, an optional fraction).  Shapes that JS turns into
`NaN` (for example a second dot) are modelled as `0`; no claim depends on
them. -/
def jsNumber (s : String) : ℚ :=
  let cs := s.toList
  let neg := cs.head? = some '-'
  let body := if neg then cs.tail else cs
  let parts := splitOnChar '.' body
  let digitVal (ds : List Char) : Nat :=
    ds.foldl (fun acc c => acc * 10 + (c.toNat - '0'.toNat)) 0
  let ok (ds : List Char) : Bool := ds.all isDigitCh
  let q : ℚ :=
    match parts with
    | [ip] => if ok ip ∧ ip ≠ [] then (digitVal ip : ℚ) else 0
    | [ip, fp] =>
      if ok ip ∧ ok fp ∧ ¬(ip = [] ∧ fp = []) then
        (digitVal ip : ℚ) + (digitVal fp : ℚ) / ((10 : ℚ) ^ fp.length)
      else 0
    | _ => 0
  if neg then -q else q

structure JSDocParsed where
  description : String
  tags : List (String × String)
deriving DecidableEq, Repr

/-- The line-prefix replacement `line.replace(/^\s*\*\s?/, "")`: leading
whitespace, one `*`, at most one following whitespace character — removed
only when the whole pattern matches. -/
def stripStarPre (line : String) : String :=
  let cs := line.toList
  let ws := cs.takeWhile (fun c => c.isWhitespace)
  let rest := cs.drop ws.length
  match rest with
  | '*' :: r =>
    match r with
    | c :: r' => if c.isWhitespace then String.mk r' else String.mk r
    | [] => String.mk r
  | _ => line

/-- The tag match `^@(\w+)\s*(.*)`: name is the maximal run of word
characters after `@` (at least one). -/
def jsdocTagMatch (line : String) : Option (String × String) :=
  match line.toList with
  | '@' :: r =>
    let name := r.takeWhile (fun c => isWordStart c ∨ isDigitCh c)
    if name.isEmpty then none
    else
      let after := r.drop name.length
      let value := after.dropWhile (fun c => c.isWhitespace)
      some (String.mk name, String.mk value)
  | _ => none

/-- `Parser.parseJSDocComment` on the raw body of a `jsdoc` token. -/
def parseJSDocComment (raw : String) : JSDocParsed :=
  let lines := (splitS '\n' raw).map (fun l => trimS (stripStarPre l))
  let step (acc : List (String × String) × List String) (line : String) :
      List (String × String) × List String :=
    match jsdocTagMatch line with
    | some (name, value) => (jsSet acc.1 name (trimS value), acc.2)
    | none => if line ≠ "" then (acc.1, acc.2 ++ [line]) else acc
  let r := lines.foldl step ([], [])
  ⟨String.intercalate " " r.2, r.1⟩

/-! # Parser (Parser class; token navigation then recursive descent)

The recursive-descent functions are indexed by fuel (JS recursion is
unbounded; `parseTokens` below passes ample fuel, and every concrete
theorem exhibits an `.ok` result, so the fuel bound is visibly never hit).
Errors are `ParseError`-style payloads; where JS would crash reading a
property of `undefined` (advancing past the end of the token array) we
also produce an error value. -/

structure PErr where
  message : String
  tok : Tok
deriving DecidableEq, Repr

abbrev PRes (α : Type) := Except PErr α

def fuelErr {α : Type} : PRes α := .error ⟨"fuel exhausted", ⟨.eof, "", 0, 0⟩⟩

def eofDefault : Tok := ⟨.eof, "", 0, 0⟩

/-- `skipNewlines()` from a given index. -/
def skipNlFrom (tokens : List Tok) (pos : Nat) : Nat :=
  pos + ((tokens.drop pos).takeWhile (fun t => t.type == TokType.newline)).length

/-- `peek()`: first non-newline token, or the `eof` default. -/
def peekTok (tokens : List Tok) (pos : Nat) : Tok :=
  match (tokens.drop (skipNlFrom tokens pos)).head? with
  | some t => t
  | none => eofDefault

/-- `advance()`: skip newlines, return the token there (none when past the
end, where JS yields `undefined`), and the incremented index. -/
def advanceTok (tokens : List Tok) (pos : Nat) : Option Tok × Nat :=
  let p := skipNlFrom tokens pos
  (tokens.get? p, p + 1)

/-- `is(type, value?)`. -/
def isTok (tokens : List Tok) (pos : Nat) (ty : TokType) (v : Option String) : Bool :=
  let t := peekTok tokens pos
  t.type == ty && (v.isNone || v == some t.value)

/-- `match(type, value?)`. -/
def matchTok (tokens : List Tok) (pos : Nat) (ty : TokType) (v : Option String) :
    Option Tok × Nat :=
  if isTok tokens pos ty v then advanceTok tokens pos
  else (none, pos)

/-- `expect(type, value?)`. -/
def expectTok (tokens : List Tok) (pos : Nat) (ty : TokType) (v : Option String) :
    PRes (Tok × Nat) :=
  match advanceTok tokens pos with
  | (none, _) => .error ⟨"TypeError: token stream exhausted", eofDefault⟩
  | (some t, p) =>
    if t.type == ty && (v.isNone || v == some t.value) then .ok (t, p)
    else .error ⟨"Expected " ++ (v.getD "token"), t⟩

/-- `peekAhead(type, value?)`: look one (non-newline) token past the
current one. -/
def peekAheadTok (tokens : List Tok) (pos : Nat) (ty : TokType) (v : Option String) :
    Bool :=
  let p := skipNlFrom tokens pos
  let p2 := skipNlFrom tokens (p + 1)
  match tokens.get? p2 with
  | some t => t.type == ty && (v.isNone || v == some t.value)
  | none => false

/-- `lookAheadPastBracket()`: the value of the first non-newline token
after index `pos + 1` (note: JS advances the raw index by one before
skipping newlines). -/
def lookAheadPastBracket (tokens : List Tok) (pos : Nat) : String :=
  match tokens.get? (skipNlFrom tokens (pos + 1)) with
  | some t => t.value
  | none => ""

/-- `peekIsIndexSignature()`: after `[`, an identifier or primitive and
then a `:`. -/
def peekIsIndexSignature (tokens : List Tok) (pos : Nat) : Bool :=
  let p := skipNlFrom tokens (pos + 1)
  match tokens.get? p with
  | some t =>
    if t.type == TokType.identifier || t.type == TokType.primitive then
      match tokens.get? (skipNlFrom tokens (p + 1)) with
      | some t2 => t2.value == ":"
      | none => false
    else false
  | none => false

/-- `parseTypeReference`'s tail: the well-known generic rewrites
(`Array<T>`, `Record<K,V>`, `Promise<T>`) and the `reference` fallback. -/
def finishTypeReference (name : String) (typeArgs : Option (List TypeNode)) : TypeNode :=
  match name, typeArgs with
  | "Array", some [t] => .array t
  | "Record", some [k, v] => .record k v
  | "Promise", some [t] => t
  | n, some args => .reference n (some args)
  | n, none => .reference n none

mutual

/-- `parseType()`. -/
def parseTypeF : Nat → List Tok → Nat → PRes (TypeNode × Nat)
  | 0, _, _ => fuelErr
  | n + 1, tokens, pos => parseUnionF n tokens pos
termination_by structural n => n

/-- `parseUnion()`. -/
def parseUnionF : Nat → List Tok → Nat → PRes (TypeNode × Nat)
  | 0, _, _ => fuelErr
  | n + 1, tokens, pos => do
    let (_, pos) := matchTok tokens pos .punctuation (some "|")
    let (left, pos) ← parseIntersectionF n tokens pos
    if isTok tokens pos .punctuation (some "|") then do
      let (members, pos) ← unionLoopF n tokens pos [left]
      .ok (.union members, pos)
    else
      .ok (left, pos)
termination_by structural n => n

/-- The `while (this.match("punctuation", "|"))` member loop. -/
def unionLoopF : Nat → List Tok → Nat → List TypeNode → PRes (List TypeNode × Nat)
  | 0, _, _, _ => fuelErr
  | n + 1, tokens, pos, members =>
    match matchTok tokens pos .punctuation (some "|") with
    | (some _, pos') => do
      let (m, pos'') ← parseIntersectionF n tokens pos'
      unionLoopF n tokens pos'' (members ++ [m])
    | (none, _) => .ok (members, pos)
termination_by structural n => n

/-- `parseIntersection()`. -/
def parseIntersectionF : Nat → List Tok → Nat → PRes (TypeNode × Nat)
  | 0, _, _ => fuelErr
  | n + 1, tokens, pos => do
    let (_, pos) := matchTok tokens pos .punctuation (some "&")
    let (left, pos) ← parsePostfixF n tokens pos
    if isTok tokens pos .punctuation (some "&") then do
      let (members, pos) ← intersectionLoopF n tokens pos [left]
      .ok (.intersection members, pos)
    else
      .ok (left, pos)
termination_by structural n => n

def intersectionLoopF : Nat → List Tok → Nat → List TypeNode → PRes (List TypeNode × Nat)
  | 0, _, _, _ => fuelErr
  | n + 1, tokens, pos, members =>
    match matchTok tokens pos .punctuation (some "&") with
    | (some _, pos') => do
      let (m, pos'') ← parsePostfixF n tokens pos'
      intersectionLoopF n tokens pos'' (members ++ [m])
    | (none, _) => .ok (members, pos)
termination_by structural n => n

/-- `parsePostfix()`. -/
def parsePostfixF : Nat → List Tok → Nat → PRes (TypeNode × Nat)
  | 0, _, _ => fuelErr
  | n + 1, tokens, pos => do
    let (t, pos) ← parsePrimaryF n tokens pos
    postfixLoopF n tokens pos t
termination_by structural n => n

/-- The `while (this.is("punctuation", "["))` array-suffix loop. -/
def postfixLoopF : Nat → List Tok → Nat → TypeNode → PRes (TypeNode × Nat)
  | 0, _, _, _ => fuelErr
  | n + 1, tokens, pos, ty =>
    if isTok tokens pos .punctuation (some "[") then
      if lookAheadPastBracket tokens pos == "]" then
        let (_, p1) := advanceTok tokens pos
        let (_, p2) := advanceTok tokens p1
        postfixLoopF n tokens p2 (.array ty)
      else .ok (ty, pos)
    else .ok (ty, pos)
termination_by structural n => n

/-- `parsePrimary()`. -/
def parsePrimaryF : Nat → List Tok → Nat → PRes (TypeNode × Nat)
  | 0, _, _ => fuelErr
  | n + 1, tokens, pos =>
    let token := peekTok tokens pos
    if token.type == TokType.primitive then
      let (_, pos') := advanceTok tokens pos
      if token.value == "true" then .ok (.literal_boolean true, pos')
      else if token.value == "false" then .ok (.literal_boolean false, pos')
      else .ok (.primitive token.value, pos')
    else if token.type == TokType.string then
      let (_, pos') := advanceTok tokens pos
      .ok (.literal_string token.value, pos')
    else if token.type == TokType.number then
      let (_, pos') := advanceTok tokens pos
      .ok (.literal_number (jsNumber token.value), pos')
    else if isTok tokens pos .punctuation (some "(") then do
      let (_, pos') := advanceTok tokens pos
      let (inner, pos'') ← parseTypeF n tokens pos'
      let (_, pos3) ← expectTok tokens pos'' .punctuation (some ")")
      .ok (.parenthesized inner, pos3)
    else if isTok tokens pos .punctuation (some "[") then
      parseTupleF n tokens pos
    else if isTok tokens pos .punctuation (some "\x7b") then do
      let (body, pos') ← parseObjectBodyF n tokens pos
      .ok (.object body.1 body.2, pos')
    else if isTok tokens pos .keyword (some "readonly") then do
      let (_, pos') := advanceTok tokens pos
      parsePostfixF n tokens pos'
    else if token.type == TokType.identifier then
      parseTypeReferenceF n tokens pos
    else
      .error ⟨"Unexpected token", token⟩
termination_by structural n => n

/-- `parseTypeReference()`. -/
def parseTypeReferenceF : Nat → List Tok → Nat → PRes (TypeNode × Nat)
  | 0, _, _ => fuelErr
  | n + 1, tokens, pos =>
    match advanceTok tokens pos with
    | (none, _) => .error ⟨"TypeError: token stream exhausted", eofDefault⟩
    | (some nameTok, pos) =>
      if isTok tokens pos .punctuation (some "<") then do
        let (_, pos) := advanceTok tokens pos
        let (args, pos) ← typeArgsLoopF n tokens pos []
        let (_, pos) ← expectTok tokens pos .punctuation (some ">")
        .ok (finishTypeReference nameTok.value (some args), pos)
      else
        .ok (finishTypeReference nameTok.value none, pos)
termination_by structural n => n

/-- The `while (!is(">") && !is("eof"))` type-argument loop. -/
def typeArgsLoopF : Nat → List Tok → Nat → List TypeNode → PRes (List TypeNode × Nat)
  | 0, _, _, _ => fuelErr
  | n + 1, tokens, pos, args =>
    if ¬ (isTok tokens pos .punctuation (some ">")) ∧ ¬ (isTok tokens pos .eof none) then do
      let (t, pos') ← parseTypeF n tokens pos
      match matchTok tokens pos' .punctuation (some ",") with
      | (some _, pos'') => typeArgsLoopF n tokens pos'' (args ++ [t])
      | (none, _) => .ok (args ++ [t], pos')
    else .ok (args, pos)
termination_by structural n => n

/-- `parseTuple()`. -/
def parseTupleF : Nat → List Tok → Nat → PRes (TypeNode × Nat)
  | 0, _, _ => fuelErr
  | n + 1, tokens, pos => do
    let (_, pos) ← expectTok tokens pos .punctuation (some "[")
    let (elements, pos) ← tupleLoopF n tokens pos []
    let (_, pos) ← expectTok tokens pos .punctuation (some "]")
    .ok (.tuple elements, pos)
termination_by structural n => n

def tupleLoopF : Nat → List Tok → Nat → List TupleElement → PRes (List TupleElement × Nat)
  | 0, _, _, _ => fuelErr
  | n + 1, tokens, pos, elements =>
    if ¬ (isTok tokens pos .punctuation (some "]")) ∧ ¬ (isTok tokens pos .eof none) then do
      let (rdot, pos) := matchTok tokens pos .punctuation (some ".")
      let (rest, pos) ←
        if rdot.isSome then do
          let (_, pos) ← expectTok tokens pos .punctuation (some ".")
          let (_, pos) ← expectTok tokens pos .punctuation (some ".")
          (.ok (true, pos) : PRes (Bool × Nat))
        else .ok (false, pos)
      let (label, pos) ←
        if isTok tokens pos .identifier none ∧
            peekAheadTok tokens pos .punctuation (some ":") then
          match advanceTok tokens pos with
          | (some ltok, pos) =>
            let (_, pos) := advanceTok tokens pos
            (.ok (some ltok.value, pos) : PRes (Option String × Nat))
          | (none, _) => .error ⟨"TypeError: token stream exhausted", eofDefault⟩
        else .ok (none, pos)
      let (t, pos) ← parseTypeF n tokens pos
      let (q, pos) := matchTok tokens pos .punctuation (some "?")
      let elements' := elements ++ [⟨t, q.isSome, label, rest⟩]
      match matchTok tokens pos .punctuation (some ",") with
      | (some _, pos') => tupleLoopF n tokens pos' elements'
      | (none, _) => .ok (elements', pos)
    else .ok (elements, pos)
termination_by structural n => n

/-- `parseObjectBody()`. -/
def parseObjectBodyF : Nat → List Tok → Nat →
    PRes ((List PropertyNode × Option IndexSignatureNode) × Nat)
  | 0, _, _ => fuelErr
  | n + 1, tokens, pos => do
    let (_, pos) ← expectTok tokens pos .punctuation (some "\x7b")
    let (body, pos) ← objBodyLoopF n tokens pos [] none
    let (_, pos) ← expectTok tokens pos .punctuation (some "\x7d")
    .ok (body, pos)
termination_by structural n => n

def objBodyLoopF : Nat → List Tok → Nat → List PropertyNode →
    Option IndexSignatureNode → PRes ((List PropertyNode × Option IndexSignatureNode) × Nat)
  | 0, _, _, _, _ => fuelErr
  | n + 1, tokens, pos, props, idx =>
    if ¬ (isTok tokens pos .punctuation (some "\x7d")) ∧ ¬ (isTok tokens pos .eof none) then do
      let pos := skipNlFrom tokens pos
      let (memberJSDoc, pos) ←
        if isTok tokens pos .jsdoc none then
          match advanceTok tokens pos with
          | (some tk, pos) =>
            (.ok (some (parseJSDocComment tk.value), pos) :
              PRes (Option JSDocParsed × Nat))
          | (none, _) => .error ⟨"TypeError: token stream exhausted", eofDefault⟩
        else .ok (none, pos)
      let pos := skipNlFrom tokens pos
      if isTok tokens pos .punctuation (some "\x7d") then
        .ok ((props, idx), pos)
      else if isTok tokens pos .punctuation (some "[") ∧ peekIsIndexSignature tokens pos then do
        let (isig, pos) ← parseIndexSignatureF n tokens pos
        let (_, pos) := matchTok tokens pos .punctuation (some ";")
        let (_, pos) := matchTok tokens pos .punctuation (some ",")
        objBodyLoopF n tokens pos props (some isig)
      else do
        let (ro, pos) := matchTok tokens pos .keyword (some "readonly")
        match advanceTok tokens pos with
        | (none, _) => .error ⟨"TypeError: token stream exhausted", eofDefault⟩
        | (some nameTok, pos) => do
          let (q, pos) := matchTok tokens pos .punctuation (some "?")
          let (_, pos) ← expectTok tokens pos .punctuation (some ":")
          let (ty, pos) ← parseTypeF n tokens pos
          let props' := props ++
            [⟨nameTok.value, ty, q.isSome, ro.isSome,
              memberJSDoc.map (fun j => j.description),
              memberJSDoc.map (fun j => j.tags)⟩]
          let (_, pos) := matchTok tokens pos .punctuation (some ";")
          let (_, pos) := matchTok tokens pos .punctuation (some ",")
          objBodyLoopF n tokens pos props' idx
    else .ok ((props, idx), pos)
termination_by structural n => n

/-- `parseIndexSignature()`. -/
def parseIndexSignatureF : Nat → List Tok → Nat → PRes (IndexSignatureNode × Nat)
  | 0, _, _ => fuelErr
  | n + 1, tokens, pos => do
    let (_, pos) ← expectTok tokens pos .punctuation (some "[")
    let pos ← match advanceTok tokens pos with
      | (none, _) =>
        (.error ⟨"TypeError: token stream exhausted", eofDefault⟩ : PRes Nat)
      | (some _, pos) => .ok pos
    let (_, pos) ← expectTok tokens pos .punctuation (some ":")
    let (keyType, pos) ← parseTypeF n tokens pos
    let (_, pos) ← expectTok tokens pos .punctuation (some "]")
    let (_, pos) ← expectTok tokens pos .punctuation (some ":")
    let (valueType, pos) ← parseTypeF n tokens pos
    .ok (⟨keyType, valueType⟩, pos)
termination_by structural n => n

end

/-- The extends-clause element loop.  Modelled from the spec (§4.2):
"Each element of the extends list is parsed as a full `TypeNode` (so
`Omit<Pet, "_id">` is valid in an extends clause)" — the current
`parser.ts` is not in the snapshot and the `Parser` excerpt bundled into
`emitter.ts` is an earlier revision that instead expected bare
identifiers, contradicting `Emitter.emitInterface` and the test suite. -/
def extendsLoopF : Nat → List Tok → Nat → List TypeNode → PRes (List TypeNode × Nat)
  | 0, _, _, _ => fuelErr
  | n + 1, tokens, pos, acc =>
    match matchTok tokens pos .punctuation (some ",") with
    | (some _, pos') => do
      let (t, pos'') ← parseTypeF n tokens pos'
      extendsLoopF n tokens pos'' (acc ++ [t])
    | (none, _) => .ok (acc, pos)

/-- `parseInterface(exported)`; the pending JSDoc is passed in (the
`consumeJSDoc()` read).  The extends clause is spec-modelled (see
`extendsLoopF`); declaration `tags` are retained per §3. -/
def parseInterfaceF (fuel : Nat) (tokens : List Tok) (pos : Nat)
    (jsdoc : Option JSDocParsed) (exported : Bool) : PRes (Declaration × Nat) := do
  let (_, pos) ← expectTok tokens pos .keyword (some "interface")
  let (nameTok, pos) ← expectTok tokens pos .identifier none
  let (extendsList, pos) ←
    match matchTok tokens pos .keyword (some "extends") with
    | (some _, pos) => do
      let (t, pos) ← parseTypeF fuel tokens pos
      let (ts, pos) ← extendsLoopF fuel tokens pos [t]
      (.ok (some ts, pos) : PRes (Option (List TypeNode) × Nat))
    | (none, pos) => .ok (none, pos)
  let (body, pos) ← parseObjectBodyF fuel tokens pos
  .ok (.interface nameTok.value extendsList body.1 body.2
        (jsdoc.map (fun j => j.description)) (jsdoc.map (fun j => j.tags)) exported, pos)

/-- The generic-parameter skip in `parseTypeAlias` (`type Foo<T> = …`). -/
def skipGenericParamsF : Nat → List Tok → Nat → Nat → PRes Nat
  | 0, _, _, _ => fuelErr
  | n + 1, tokens, pos, depth =>
    if depth > 0 ∧ ¬ (isTok tokens pos .eof none) then
      let d1 := if isTok tokens pos .punctuation (some "<") then depth + 1 else depth
      let d2 := if isTok tokens pos .punctuation (some ">") then d1 - 1 else d1
      let (_, pos') := advanceTok tokens pos
      skipGenericParamsF n tokens pos' d2
    else .ok pos

/-- `parseTypeAlias(exported)`; declaration `tags` retained per §3 (see
`parseInterfaceF`). -/
def parseTypeAliasF (fuel : Nat) (tokens : List Tok) (pos : Nat)
    (jsdoc : Option JSDocParsed) (exported : Bool) : PRes (Declaration × Nat) := do
  let (_, pos) ← expectTok tokens pos .keyword (some "type")
  let (nameTok, pos) ← expectTok tokens pos .identifier none
  let pos ←
    match matchTok tokens pos .punctuation (some "<") with
    | (some _, pos) => skipGenericParamsF fuel tokens pos 1
    | (none, pos) => .ok pos
  let (_, pos) ← expectTok tokens pos .punctuation (some "=")
  let (ty, pos) ← parseTypeF fuel tokens pos
  let (_, pos) := matchTok tokens pos .punctuation (some ";")
  .ok (.type_alias nameTok.value ty (jsdoc.map (fun j => j.description))
        (jsdoc.map (fun j => j.tags)) exported, pos)

/-- The enum member loop (`autoIndex` as in `parseEnum`). -/
def enumLoopF : Nat → List Tok → Nat → List EnumMember → ℚ →
    PRes (List EnumMember × Nat)
  | 0, _, _, _, _ => fuelErr
  | n + 1, tokens, pos, members, autoIndex =>
    if ¬ (isTok tokens pos .punctuation (some "\x7d")) ∧ ¬ (isTok tokens pos .eof none) then do
      let pos := skipNlFrom tokens pos
      if isTok tokens pos .jsdoc none then
        let (_, pos') := advanceTok tokens pos
        enumLoopF n tokens pos' members autoIndex
      else if isTok tokens pos .punctuation (some "\x7d") then
        .ok (members, pos)
      else do
        let (nameTok, pos) ← expectTok tokens pos .identifier none
        let (value, autoIndex', pos) ←
          match matchTok tokens pos .punctuation (some "=") with
          | (some _, pos) =>
            if isTok tokens pos .string none then
              match advanceTok tokens pos with
              | (some vTok, pos) =>
                (.ok (EnumVal.str vTok.value, autoIndex, pos) :
                  PRes (EnumVal × ℚ × Nat))
              | (none, _) => .error ⟨"TypeError: token stream exhausted", eofDefault⟩
            else if isTok tokens pos .number none then
              match advanceTok tokens pos with
              | (some vTok, pos) =>
                .ok (EnumVal.num (jsNumber vTok.value), jsNumber vTok.value + 1, pos)
              | (none, _) => .error ⟨"TypeError: token stream exhausted", eofDefault⟩
            else
              let (_, pos') := advanceTok tokens pos
              .ok (EnumVal.num autoIndex, autoIndex, pos')
          | (none, pos) => .ok (EnumVal.num autoIndex, autoIndex + 1, pos)
        let (_, pos) := matchTok tokens pos .punctuation (some ",")
        enumLoopF n tokens pos (members ++ [⟨nameTok.value, value⟩]) autoIndex'
    else .ok (members, pos)

/-- `parseEnum(exported)`. -/
def parseEnumF (fuel : Nat) (tokens : List Tok) (pos : Nat)
    (jsdoc : Option JSDocParsed) (exported : Bool) : PRes (Declaration × Nat) := do
  let (_, pos) := matchTok tokens pos .keyword (some "const")
  let (_, pos) ← expectTok tokens pos .keyword (some "enum")
  let (nameTok, pos) ← expectTok tokens pos .identifier none
  let (_, pos) ← expectTok tokens pos .punctuation (some "\x7b")
  let (members, pos) ← enumLoopF fuel tokens pos [] 0
  let (_, pos) ← expectTok tokens pos .punctuation (some "\x7d")
  .ok (.enum nameTok.value members (jsdoc.map (fun j => j.description))
        (jsdoc.map (fun j => j.tags)) exported, pos)

/-- `parse()`: the top-level loop with the pending-JSDoc slot. -/
def parseTopF : Nat → List Tok → Nat → Option JSDocParsed → List Declaration →
    PRes (List Declaration)
  | 0, _, _, _, _ => fuelErr
  | n + 1, tokens, pos, pending, decls =>
    if ¬ (isTok tokens pos .eof none) then
      let pos := skipNlFrom tokens pos
      if isTok tokens pos .jsdoc none then
        match advanceTok tokens pos with
        | (some tk, pos') =>
          parseTopF n tokens pos' (some (parseJSDocComment tk.value)) decls
        | (none, pos') => parseTopF n tokens pos' pending decls
      else
        let (ex, pos) := matchTok tokens pos .keyword (some "export")
        let exported := ex.isSome
        if isTok tokens pos .keyword (some "interface") then do
          let (d, pos') ← parseInterfaceF n tokens pos pending exported
          parseTopF n tokens pos' none (decls ++ [d])
        else if isTok tokens pos .keyword (some "type") then do
          let (d, pos') ← parseTypeAliasF n tokens pos pending exported
          parseTopF n tokens pos' none (decls ++ [d])
        else if isTok tokens pos .keyword (some "enum") ∨
            (isTok tokens pos .keyword (some "const") ∧
              peekAheadTok tokens pos .keyword (some "enum")) then do
          let (d, pos') ← parseEnumF n tokens pos pending exported
          parseTopF n tokens pos' none (decls ++ [d])
        else
          let (_, pos') := advanceTok tokens pos
          parseTopF n tokens pos' pending decls
    else .ok decls

/-- `new Parser(tokens).parse()` with ample fuel. -/
def parseTokens (tokens : List Tok) : PRes (List Declaration) :=
  parseTopF ((tokens.length + 1) * 32) tokens 0 none []

/-- `parseDeclarations(source)` of the public API. -/
def parseDeclarations (source : String) : PRes (List Declaration) :=
  parseTokens (tokenize source)

/-! # Emitter (src/emitter.ts)

Emission functions return `Option Json`; `none` is only the fuel bound of
the shallow embedding (JS recursion is unbounded there — and genuinely
diverges on inputs such as `interface A { x: Partial<A> }`, which is why
the embedding needs fuel at all).  Every claim about a definite output
carries or exhibits a `some`. -/

structure EmitterOptionsIn where
  includeSchema : Option Bool := none
  schemaVersion : Option String := none
  strictObjects : Option Bool := none
  rootType : Option String := none
  includeJSDoc : Option Bool := none
  additionalProperties : Option Bool := none
  followImports : Option String := none
  baseDir : Option String := none

/-- `Required<EmitterOptions>` as the constructor resolves it (note that
`additionalProperties` stays `undefined` when unset). -/
structure EOpts where
  includeSchema : Bool
  schemaVersion : String
  strictObjects : Bool
  rootType : String
  includeJSDoc : Bool
  additionalProperties : Option Bool
  followImports : String
  baseDir : String

def resolveOptions (o : EmitterOptionsIn) : EOpts :=
  ⟨o.includeSchema.getD true,
   o.schemaVersion.getD "https://json-schema.org/draft/2020-12/schema",
   o.strictObjects.getD false,
   o.rootType.getD "",
   o.includeJSDoc.getD true,
   o.additionalProperties,
   o.followImports.getD "none",
   o.baseDir.getD ""⟩

structure Emitter where
  declarations : List (String × Declaration)
  options : EOpts

/-- The constructor: `for (const decl of declarations)
this.declarations.set(decl.name, decl)` — a later declaration with the
same name silently overwrites the earlier one. -/
def buildDeclMap (decls : List Declaration) : List (String × Declaration) :=
  decls.foldl (fun m d => jsSet m d.name d) []

def Emitter.make (decls : List Declaration) (o : EmitterOptionsIn) : Emitter :=
  ⟨buildDeclMap decls, resolveOptions o⟩

/-- `emitPrimitive`. -/
def emitPrimitive (value : String) : Json :=
  match value with
  | "string" => .obj [("type", .str "string")]
  | "number" => .obj [("type", .str "number")]
  | "boolean" => .obj [("type", .str "boolean")]
  | "null" => .obj [("type", .str "null")]
  | "undefined" => .obj []
  | "bigint" => .obj [("type", .str "integer")]
  | "any" => .obj []
  | "unknown" => .obj []
  | "void" => .obj []
  | "never" => .obj [("not", .obj [])]
  | "object" => .obj [("type", .str "object")]
  | _ => .obj []

/-- `JSON.parse` as used by `applyJSDocTags` on `@default`/`@example`
values, modelled for scalar JSON literals; composite literals fall back to
the raw string (no claim touches them). -/
def jsParseJson (s : String) : Option Json :=
  let t := trimS s
  let isNumShape : Bool :=
    let body := if t.toList.head? = some '-' then t.toList.tail else t.toList
    let parts := splitOnChar '.' body
    match parts with
    | [ip] => ip ≠ [] && ip.all isDigitCh
    | [ip, fp] => ip ≠ [] && fp ≠ [] && ip.all isDigitCh && fp.all isDigitCh
    | _ => false
  if t = "true" then some (.jbool true)
  else if t = "false" then some (.jbool false)
  else if t = "null" then some Json.null
  else if isNumShape then some (.num (jsNumber t))
  else if t.length ≥ 2 ∧ t.toList.head? = some '"' ∧ t.toList.getLast? = some '"' then
    some (.str (String.mk (t.toList.tail.dropLast)))
  else none

/-- One `case` of `applyJSDocTags`' switch. -/
def applyOneTag (schema : Json) (key value : String) : Json :=
  match key with
  | "minimum" => schema.setField "minimum" (.num (jsNumber value))
  | "maximum" => schema.setField "maximum" (.num (jsNumber value))
  | "minLength" => schema.setField "minLength" (.num (jsNumber value))
  | "maxLength" => schema.setField "maxLength" (.num (jsNumber value))
  | "pattern" => schema.setField "pattern" (.str value)
  | "format" => schema.setField "format" (.str value)
  | "default" =>
    match jsParseJson value with
    | some j => schema.setField "default" j
    | none => schema.setField "default" (.str value)
  | "example" | "examples" =>
    let current := match schema.getField "examples" with
      | some (.arr l) => l
      | _ => []
    let parsed := match jsParseJson value with
      | some j => j
      | none => .str value
    schema.setField "examples" (.arr (current ++ [parsed]))
  | "deprecated" => schema.setField "deprecated" (.jbool true)
  | "title" => schema.setField "title" (.str value)
  | "additionalProperties" =>
    match schema.getField "type" with
    | some (.str "object") =>
      let lowerValue := lowerS value
      if lowerValue = "true" then schema.setField "additionalProperties" (.jbool true)
      else if lowerValue = "false" then schema.setField "additionalProperties" (.jbool false)
      else schema
    | _ => schema
  | _ => schema

/-- `applyJSDocTags(schema, tags)`: iterate the tag entries in insertion
order, mutating the schema. -/
def applyJSDocTags (schema : Json) (tags : List (String × String)) : Json :=
  tags.foldl (fun s kv => applyOneTag s kv.1 kv.2) schema

mutual

/-- `flattenUnion` (the loop over the members; a nested union member
spreads its own flattening). -/
def flattenUnion : List TypeNode → List TypeNode
  | [] => []
  | m :: rest => flattenUnionOne m ++ flattenUnion rest

/-- One member of `flattenUnion`'s loop: a union spreads, anything else
is kept as a singleton. -/
def flattenUnionOne : TypeNode → List TypeNode
  | .union ms => flattenUnion ms
  | m => [m]

end

def isLitStr : TypeNode → Bool
  | .literal_string _ => true
  | _ => false

def isLitNum : TypeNode → Bool
  | .literal_number _ => true
  | _ => false

/-- `m.kind === "primitive" && (m.value === "null" || m.value === "undefined")`. -/
def isNullOrUndef : TypeNode → Bool
  | .primitive v => v = "null" || v = "undefined"
  | _ => false

def litStrVal : TypeNode → Json
  | .literal_string s => .str s
  | _ => Json.null

def litNumVal : TypeNode → Json
  | .literal_number q => .num q
  | _ => Json.null

/-- `extractKeyNames`: a string literal, or a union whose members are all
string literals (collected into a `Set`, hence deduplicated); otherwise
`null`. -/
def extractKeyNames : TypeNode → Option (List String)
  | .literal_string s => some [s]
  | .union ms =>
    (ms.mapM (fun m => match m with
      | TypeNode.literal_string s => some s
      | _ => (none : Option String))).map List.eraseDups
  | _ => none

/-- `getProperties`. -/
def getProperties (dm : List (String × Declaration)) : TypeNode → Option (List PropertyNode)
  | .object props _ => some props
  | .reference nm _ =>
    match jsGet dm nm with
    | none => none
    | some (.interface _ _ props _ _ _ _) => some props
    | some (.type_alias _ (.object props _) _ _ _) => some props
    | some _ => none
  | _ => none

def PropertyNode.withOptional (p : PropertyNode) (b : Bool) : PropertyNode :=
  ⟨p.name, p.type, b, p.readonly, p.description, p.tags⟩

/-- Truthiness of an optional JS string (`decl.description`, `""` is falsy). -/
def strTruthy : Option String → Bool
  | some s => s ≠ ""
  | none => false

mutual

/-- `emitType`. -/
def emitType (E : Emitter) : Nat → TypeNode → Option Json
  | 0, _ => none
  | n + 1, node =>
    match node with
    | .primitive v => some (emitPrimitive v)
    | .literal_string s => some (.obj [("const", .str s)])
    | .literal_number q => some (.obj [("const", .num q)])
    | .literal_boolean b => some (.obj [("const", .jbool b)])
    | .object props idx => emitObjectType E n props idx none
    | .array el => do
      let s ← emitType E n el
      some (.obj [("type", .str "array"), ("items", s)])
    | .tuple els => emitTuple E n els
    | .union ms => emitUnion E n ms
    | .intersection ms => emitIntersection E n ms
    | .reference nm args => emitReference E n nm args
    | .parenthesized inner => emitType E n inner
    | .record k v => emitRecord E n k v
    | .template_literal _ => some (.obj [("type", .str "string")])
    | .mapped _ _ _ _ => some (.obj [("type", .str "object")])
termination_by structural n => n

/-- `emitObjectType(properties, indexSignature?, tags?)` including the
`additionalProperties` precedence chain. -/
def emitObjectType (E : Emitter) : Nat → List PropertyNode →
    Option IndexSignatureNode → Option (List (String × String)) → Option Json
  | 0, _, _, _ => none
  | n + 1, properties, indexSignature, tags => do
    let propPairs ← properties.mapM (fun p => do
      let ps ← emitType E n p.type
      let ps :=
        if E.options.includeJSDoc then
          let ps := if strTruthy p.description
            then ps.setField "description" (.str (p.description.getD ""))
            else ps
          match p.tags with
          | some ts => applyJSDocTags ps ts
          | none => ps
        else ps
      let ps := if p.readonly then ps.setField "readOnly" (.jbool true) else ps
      pure (p.name, ps))
    let props := propPairs.foldl (fun m kv => jsSet m kv.1 kv.2) []
    let required := (properties.filter (fun p => ¬ p.optional)).map PropertyNode.name
    let schema : List (String × Json) := [("type", .str "object")]
    let schema := if props.isEmpty then schema else jsSet schema "properties" (.obj props)
    let schema := if required ≠ [] then
        jsSet schema "required" (.arr (required.map Json.str))
      else schema
    match indexSignature with
    | some isig => do
      let v ← emitType E n isig.valueType
      pure (.obj (jsSet schema "additionalProperties" v))
    | none =>
      match (if E.options.includeJSDoc then tags.bind (fun ts => jsGet ts "additionalProperties") else none) with
      | some value =>
        let lower := lowerS value
        if lower = "true" then pure (.obj (jsSet schema "additionalProperties" (.jbool true)))
        else if lower = "false" then pure (.obj (jsSet schema "additionalProperties" (.jbool false)))
        else pure (.obj schema)
      | none =>
        if E.options.strictObjects then
          pure (.obj (jsSet schema "additionalProperties" (.jbool false)))
        else
          match E.options.additionalProperties with
          | some b => pure (.obj (jsSet schema "additionalProperties" (.jbool b)))
          | none => pure (.obj schema)
termination_by structural n => n

/-- `emitTuple`. -/
def emitTuple (E : Emitter) : Nat → List TupleElement → Option Json
  | 0, _ => none
  | n + 1, elements => do
    let requiredCount := (elements.filter (fun e => ¬ e.optional ∧ ¬ e.rest)).length
    let hasRest := elements.any TupleElement.rest
    if hasRest then do
      let fixed := elements.filter (fun e => ¬ e.rest)
      let restElt := elements.find? TupleElement.rest
      let prefixItems ← fixed.mapM (fun e => emitType E n e.type)
      let schema : List (String × Json) := [("type", .str "array")]
      let schema := jsSet schema "prefixItems" (.arr prefixItems)
      let schema := jsSet schema "minItems" (.num requiredCount)
      match restElt with
      | some r => do
        let items ← emitType E n r.type
        pure (.obj (jsSet schema "items" items))
      | none => pure (.obj schema)
    else do
      let prefixItems ← elements.mapM (fun e => emitType E n e.type)
      let schema : List (String × Json) := [("type", .str "array")]
      let schema := jsSet schema "prefixItems" (.arr prefixItems)
      let schema := jsSet schema "minItems" (.num requiredCount)
      let schema := jsSet schema "maxItems" (.num elements.length)
      pure (.obj schema)
termination_by structural n => n

/-- `emitUnion`. -/
def emitUnion (E : Emitter) : Nat → List TypeNode → Option Json
  | 0, _ => none
  | n + 1, members =>
    let flat := flattenUnion members
    if flat.all isLitStr then
      some (.obj [("type", .str "string"), ("enum", .arr (flat.map litStrVal))])
    else if flat.all isLitNum then
      some (.obj [("type", .str "number"), ("enum", .arr (flat.map litNumVal))])
    else
      let nonNullMembers := flat.filter (fun m => ¬ isNullOrUndef m)
      let hasNullOrUndef := flat.any isNullOrUndef
      match nonNullMembers, hasNullOrUndef with
      | [m], true => do
        let schema ← emitType E n m
        match schema.getField "type" with
        | some (.str t) => pure (schema.setField "type" (.arr [.str t, .str "null"]))
        | _ => pure (.obj [("anyOf", .arr [schema, .obj [("type", .str "null")]])])
      | _, _ => do
        let schemas ← flat.mapM (emitType E n)
        pure (.obj [("anyOf", .arr schemas)])
termination_by structural n => n

/-- `emitIntersection`. -/
def emitIntersection (E : Emitter) : Nat → List TypeNode → Option Json
  | 0, _ => none
  | n + 1, members => do
    let schemas ← members.mapM (emitType E n)
    match schemas with
    | [s] => pure s
    | _ => pure (.obj [("allOf", .arr schemas)])
termination_by structural n => n

/-- `emitReference`. -/
def emitReference (E : Emitter) : Nat → String → Option (List TypeNode) → Option Json
  | 0, _, _ => none
  | n + 1, name, typeArgs =>
    if name = "Date" ∧ typeArgs.isNone then
      some (.obj [("type", .str "string"), ("format", .str "date-time")])
    else do
      let resolved ←
        match typeArgs with
        | some args =>
          if args.length > 0 then resolveUtilityType E n name args
          else pure none
        | none => pure (none : Option Json)
      match resolved with
      | some s => pure s
      | none => pure (.obj [("$ref", .str ("#/$defs/" ++ name))])
termination_by structural n => n

/-- `emitRecord`. -/
def emitRecord (E : Emitter) : Nat → TypeNode → TypeNode → Option Json
  | 0, _, _ => none
  | n + 1, keyType, valueType =>
    let base : List (String × Json) := [("type", .str "object")]
    match keyType with
    | .union ms =>
      if ms.all isLitStr then do
        let valueSchema ← emitType E n valueType
        let props := ms.foldl (fun acc m =>
          match m with
          | TypeNode.literal_string k => jsSet acc k valueSchema
          | _ => acc) []
        let req := ms.filterMap (fun m =>
          match m with
          | TypeNode.literal_string k => some (Json.str k)
          | _ => none)
        pure (.obj (jsSet (jsSet base "properties" (.obj props)) "required" (.arr req)))
      else do
        let v ← emitType E n valueType
        pure (.obj (jsSet base "additionalProperties" v))
    | .literal_string k => do
      let valueSchema ← emitType E n valueType
      pure (.obj (jsSet (jsSet base "properties" (.obj [(k, valueSchema)]))
        "required" (.arr [.str k])))
    | _ => do
      let v ← emitType E n valueType
      pure (.obj (jsSet base "additionalProperties" v))
termination_by structural n => n

/-- `resolveUtilityType`; the inner `Option` is the JS `null` result. -/
def resolveUtilityType (E : Emitter) : Nat → String → List TypeNode →
    Option (Option Json)
  | 0, _, _ => none
  | n + 1, name, typeArgs =>
    match name with
    | "Partial" =>
      match typeArgs with
      | t :: _ => do
        let s ← resolvePartial E n t
        pure (some s)
      | [] => pure none
    | "Required" =>
      match typeArgs with
      | t :: _ => do
        let s ← resolveRequired E n t
        pure (some s)
      | [] => pure none
    | "Pick" =>
      match typeArgs with
      | [t, k] => do
        let s ← resolvePick E n t k
        pure (some s)
      | _ => pure none
    | "Omit" =>
      match typeArgs with
      | [t, k] => do
        let s ← resolveOmit E n t k
        pure (some s)
      | _ => pure none
    | "Readonly" =>
      match typeArgs with
      | t :: _ => do
        let s ← emitType E n t
        pure (some s)
      | [] => pure none
    | "NonNullable" =>
      match typeArgs with
      | t :: _ => do
        let s ← emitType E n t
        pure (some s)
      | [] => pure none
    | "Set" =>
      match typeArgs with
      | t :: _ => do
        let s ← emitType E n t
        pure (some (.obj [("type", .str "array"), ("items", s), ("uniqueItems", .jbool true)]))
      | [] => pure none
    | "Map" =>
      match typeArgs with
      | [_, v] => do
        let s ← emitType E n v
        pure (some (.obj [("type", .str "object"), ("additionalProperties", s)]))
      | _ => pure none
    | _ => pure none
termination_by structural n => n

/-- `resolvePartial`. -/
def resolvePartial (E : Emitter) : Nat → TypeNode → Option Json
  | 0, _ => none
  | n + 1, target =>
    match target with
    | .reference nm _ =>
      (match jsGet E.declarations nm with
       | some (.interface _ _ props _ _ _ _) =>
         emitObjectType E n (props.map (fun p => p.withOptional true)) none none
       | some (.type_alias _ (.object props _) _ _ _) =>
         emitObjectType E n (props.map (fun p => p.withOptional true)) none none
       | _ => emitType E n target)
    | .object props _ =>
      emitObjectType E n (props.map (fun p => p.withOptional true)) none none
    | _ => emitType E n target
termination_by structural n => n

/-- `resolveRequired`. -/
def resolveRequired (E : Emitter) : Nat → TypeNode → Option Json
  | 0, _ => none
  | n + 1, target =>
    match target with
    | .reference nm _ =>
      (match jsGet E.declarations nm with
       | some (.interface _ _ props _ _ _ _) =>
         emitObjectType E n (props.map (fun p => p.withOptional false)) none none
       | some (.type_alias _ (.object props _) _ _ _) =>
         emitObjectType E n (props.map (fun p => p.withOptional false)) none none
       | _ => emitType E n target)
    | .object props _ =>
      emitObjectType E n (props.map (fun p => p.withOptional false)) none none
    | _ => emitType E n target
termination_by structural n => n

/-- `resolvePick`. -/
def resolvePick (E : Emitter) : Nat → TypeNode → TypeNode → Option Json
  | 0, _, _ => none
  | n + 1, target, keys =>
    match extractKeyNames keys with
    | none => emitType E n target
    | some keyNames =>
      match getProperties E.declarations target with
      | none => emitType E n target
      | some props =>
        emitObjectType E n (props.filter (fun p => keyNames.contains p.name)) none none
termination_by structural n => n

/-- `resolveOmit`. -/
def resolveOmit (E : Emitter) : Nat → TypeNode → TypeNode → Option Json
  | 0, _, _ => none
  | n + 1, target, keys =>
    match extractKeyNames keys with
    | none => emitType E n target
    | some keyNames =>
      match getProperties E.declarations target with
      | none => emitType E n target
      | some props =>
        emitObjectType E n (props.filter (fun p => ¬ keyNames.contains p.name)) none none
termination_by structural n => n

end

/-- The trailing description assignment
`if (this.options.includeJSDoc && decl.description) result.description = …`. -/
def withDescription (E : Emitter) (description : Option String) (s : Json) : Json :=
  if E.options.includeJSDoc ∧ strTruthy description then
    s.setField "description" (.str (description.getD ""))
  else s

/-- `emitInterface`. -/
def emitInterface (E : Emitter) (fuel : Nat) (extendsList : Option (List TypeNode))
    (properties : List PropertyNode) (indexSignature : Option IndexSignatureNode)
    (description : Option String) (tags : Option (List (String × String))) :
    Option Json := do
  let schema ← emitObjectType E fuel properties indexSignature tags
  match extendsList with
  | some exts =>
    if exts.length > 0 then do
      let allOf ← exts.mapM (fun typeNode =>
        match typeNode with
        | TypeNode.reference nm none =>
          pure (Json.obj [("$ref", .str ("#/$defs/" ++ nm))])
        | t => emitType E fuel t)
      let hasOwnProperties := properties.length > 0 ∨ indexSignature.isSome
      let allOf := if hasOwnProperties then allOf ++ [schema] else allOf
      match allOf with
      | [single] => pure (withDescription E description single)
      | _ => pure (withDescription E description (.obj [("allOf", .arr allOf)]))
    else
      pure (withDescription E description schema)
  | none => pure (withDescription E description schema)

/-- `emitTypeAlias` (note: the declaration-level `@additionalProperties`
tag is applied *after* `emitType`, overwriting whatever the chain in
`emitObjectType` chose). -/
def emitTypeAlias (E : Emitter) (fuel : Nat) (ty : TypeNode)
    (description : Option String) (tags : Option (List (String × String))) :
    Option Json := do
  let schema ← emitType E fuel ty
  if E.options.includeJSDoc then
    let schema := withDescription E description schema
    match tags.bind (fun ts => jsGet ts "additionalProperties") with
    | some value =>
      match schema.getField "type" with
      | some (.str "object") =>
        let v := lowerS value
        if v = "true" then pure (schema.setField "additionalProperties" (.jbool true))
        else if v = "false" then pure (schema.setField "additionalProperties" (.jbool false))
        else pure schema
      | _ => pure schema
    | none => pure schema
  else
    pure schema

/-- `emitEnum`. -/
def emitEnum (E : Emitter) (members : List EnumMember)
    (description : Option String) : Json :=
  let schema : List (String × Json) :=
    [("enum", .arr (members.map (fun m =>
      match m.value with
      | .str s => Json.str s
      | .num q => Json.num q)))]
  let schema := match withDescription E description (.obj schema) with
    | .obj kvs => kvs
    | _ => schema
  if members.all (fun m => match m.value with | .str _ => true | _ => false) then
    .obj (jsSet schema "type" (.str "string"))
  else if members.all (fun m => match m.value with | .num _ => true | _ => false) then
    .obj (jsSet schema "type" (.str "number"))
  else
    .obj schema

/-- `emitDeclaration`. -/
def emitDeclaration (E : Emitter) (fuel : Nat) : Declaration → Option Json
  | .interface _ exts props idx desc tags _ =>
    emitInterface E fuel exts props idx desc tags
  | .type_alias _ ty desc tags _ => emitTypeAlias E fuel ty desc tags
  | .enum _ members desc _ _ => some (emitEnum E members desc)

/-! ## Transitive self-reference detection -/

/-- The `$ref` capture of `getReferencedTypes`:
`/^#\/\$defs\/(.+)$/`. -/
def refCapture (kvs : List (String × Json)) : List String :=
  match jsGet kvs "$ref" with
  | some (.str s) =>
    if s.toList.take 8 = "#/$defs/".toList ∧ 8 < s.toList.length then
      [String.mk (s.toList.drop 8)]
    else []
  | _ => []

mutual

/-- `getReferencedTypes` / `collectRefs`: every `#/$defs/<name>` pointer
in the schema tree, in traversal order. -/
def refsOfJson : Json → List String
  | .obj kvs => refCapture kvs ++ refsOfKvs kvs
  | .arr l => refsOfArr l
  | _ => []

def refsOfKvs : List (String × Json) → List String
  | [] => []
  | (_, v) :: rest => refsOfJson v ++ refsOfKvs rest

def refsOfArr : List Json → List String
  | [] => []
  | j :: rest => refsOfJson j ++ refsOfArr rest

end

mutual

/-- `canReach(startType, targetType, visited)` of
`isTransitivelySelfReferential`, fuelled (the JS recursion terminates
because `visited` grows; `isTransitivelySelfReferential` below passes
ample fuel: every nested call frame either adds a fresh element of the
finite `$ref` multiset to `visited` or advances along one definition's
reference list, so the nesting depth is below the fuel passed there). -/
def canReachF (defs : List (String × Json)) : Nat → List String → String → String →
    Option (Bool × List String)
  | 0, _, _, _ => none
  | n + 1, visited, startType, targetType =>
    if startType = targetType then some (true, visited)
    else if visited.contains startType then some (false, visited)
    else
      let visited := startType :: visited
      match jsGet defs startType with
      | none => some (false, visited)
      | some schema => canReachLoopF defs n visited (refsOfJson schema) targetType
termination_by structural n => n

/-- The `for (const ref of refs)` loop inside `canReach`. -/
def canReachLoopF (defs : List (String × Json)) : Nat → List String → List String →
    String → Option (Bool × List String)
  | 0, _, _, _ => none
  | _ + 1, visited, [], _ => some (false, visited)
  | n + 1, visited, ref :: rest, targetType =>
    if ref = targetType then some (true, visited)
    else
      match canReachF defs n visited ref targetType with
      | none => none
      | some (true, v') => some (true, v')
      | some (false, v') => canReachLoopF defs n v' rest targetType
termination_by structural n => n

end

/-- All `$ref` targets occurring in the emitted defs (a bound on the
visited set). -/
def allDefsRefs (defs : List (String × Json)) : List String :=
  defs.flatMap (fun kv => refsOfJson kv.2)

/-- The `for (const ref of refs) if (canReach(ref, typeName, new Set()))
return true` loop of `isTransitivelySelfReferential`: one fresh `canReach`
per direct reference of the candidate root. -/
def isTSRLoop (defs : List (String × Json)) (fuel : Nat) (typeName : String) :
    List String → Option Bool
  | [] => some false
  | ref :: rest =>
    match canReachF defs fuel [] ref typeName with
    | none => none
    | some (true, _) => some true
    | some (false, _) => isTSRLoop defs fuel typeName rest

/-- `isTransitivelySelfReferential(typeName, defs)`.  `none` is the fuel
bound of the embedded `canReach` (the JS original needs none: its
recursion is bounded by the growing visited set). -/
def isTransitivelySelfReferential (typeName : String)
    (defs : List (String × Json)) : Option Bool :=
  isTSRLoop defs (2 * (allDefsRefs defs).length + 3) typeName
    (refsOfJson ((jsGet defs typeName).getD Json.null))

/-- `emit()`. -/
def Emitter.emit (E : Emitter) (fuel : Nat) : Option Json := do
  let defs ← E.declarations.mapM (fun kv => do
    let s ← emitDeclaration E fuel kv.2
    pure (kv.1, s))
  if E.options.rootType ≠ "" ∧ (jsGet defs E.options.rootType).isSome then do
    let root := (jsGet defs E.options.rootType).getD Json.null
    let isSelfReferential ← isTransitivelySelfReferential E.options.rootType defs
    if isSelfReferential then
      let result : List (String × Json) :=
        [("$ref", .str ("#/$defs/" ++ E.options.rootType))]
      let result := if E.options.includeSchema then
          jsSet result "$schema" (.str E.options.schemaVersion)
        else result
      pure (.obj (jsSet result "$defs" (.obj defs)))
    else
      let defs' := jsDelete defs E.options.rootType
      let result := match root with
        | .obj kvs => kvs
        | _ => []
      let result := if E.options.includeSchema then
          jsSet result "$schema" (.str E.options.schemaVersion)
        else result
      let result := if defs'.isEmpty then result
        else jsSet result "$defs" (.obj defs')
      pure (.obj result)
  else
    let result : List (String × Json) := []
    let result := if E.options.includeSchema then
        jsSet result "$schema" (.str E.options.schemaVersion)
      else result
    pure (.obj (jsSet result "$defs" (.obj defs)))

/-- `toJsonSchema(source, options)`: tokenize, parse, emit.  The outer
`Except` is the parser's exception channel; the inner `Option` is the
emitter's fuel bound. -/
def toJsonSchema (source : String) (options : EmitterOptionsIn) :
    PRes (Option Json) := do
  let declarations ← parseDeclarations source
  pure ((Emitter.make declarations options).emit 256)

/-! # Import extractor (src/import-parser.ts)

This pass uses its own raw token cursor (`peek` does *not* skip newlines;
explicit `skipNewlines` calls do).  Its `expect` throws an `Error`, which
we model as `Except.error`. -/

structure ImportStatement where
  importedNames : List String
  modulePath : String
  isDefault : Bool
  isNamespace : Bool
  namespaceAlias : Option String := none
deriving DecidableEq, Repr

/-- Raw single-token test `peek()?.type === ty && peek()?.value === v`. -/
def peekIsI (tokens : List Tok) (i : Nat) (ty : TokType) (v : Option String) : Bool :=
  match tokens.get? i with
  | some t => t.type == ty && (v.isNone || v == some t.value)
  | none => false

/-- `skipNewlines()` on the raw cursor. -/
def skipNlI (tokens : List Tok) (i : Nat) : Nat :=
  i + ((tokens.drop i).takeWhile (fun t => t.type == TokType.newline)).length

/-- The token-type names as the tokenizer's `Token.type` strings spell
them (used only to build error messages). -/
def TokType.toStr : TokType → String
  | .keyword => "keyword"
  | .primitive => "primitive"
  | .identifier => "identifier"
  | .string => "string"
  | .number => "number"
  | .punctuation => "punctuation"
  | .jsdoc => "jsdoc"
  | .newline => "newline"
  | .eof => "eof"

/-- The extractor's `expect`: throws on a missing or mismatched token
(`token?.type`/`token?.value` interpolate as `undefined` for a missing
one). -/
def expectI (tokens : List Tok) (i : Nat) (ty : TokType) (v : Option String) :
    Except String (Tok × Nat) :=
  match tokens.get? i with
  | none => .error ("Expected " ++ ty.toStr ++
      (match v with | some s => " \"" ++ s ++ "\"" | none => "") ++
      " but got undefined \"undefined\"")
  | some t =>
    if t.type == ty && (v.isNone || v == some t.value) then .ok (t, i + 1)
    else .error ("Expected " ++ ty.toStr ++
      (match v with | some s => " \"" ++ s ++ "\"" | none => "") ++
      " but got " ++ t.type.toStr ++ " \"" ++ t.value ++ "\"")

/-- The `import { … }` name loop (no `eof` guard: a truncated brace list
reaches `expect` on the `eof` token and throws). -/
def importBraceLoopF : Nat → List Tok → Nat → List String →
    Except String (List String × Nat)
  | 0, _, _, _ => .error "fuel exhausted"
  | n + 1, tokens, i, names =>
    if ¬ (peekIsI tokens i .punctuation (some "\x7d")) then do
      let i := skipNlI tokens i
      let (name, i) ← expectI tokens i .identifier none
      let i := skipNlI tokens i
      let i ←
        if peekIsI tokens i .keyword (some "as") then do
          let i := skipNlI tokens (i + 1)
          let (_, i) ← expectI tokens i .identifier none
          (pure (skipNlI tokens i) : Except String Nat)
        else pure i
      let i := if peekIsI tokens i .punctuation (some ",") then skipNlI tokens (i + 1) else i
      importBraceLoopF n tokens i (names ++ [name.value])
    else .ok (names, i)

/-- The `export { … }` name loop (this one breaks at `eof`). -/
def exportBraceLoopF : Nat → List Tok → Nat → List String →
    Except String (List String × Nat)
  | 0, _, _, _ => .error "fuel exhausted"
  | n + 1, tokens, i, names =>
    if ¬ (peekIsI tokens i .punctuation (some "\x7d")) then do
      let i := skipNlI tokens i
      if peekIsI tokens i .eof none then .ok (names, i)
      else do
        let (name, i) ← expectI tokens i .identifier none
        let i := skipNlI tokens i
        let i ←
          if peekIsI tokens i .keyword (some "as") then do
            let i := skipNlI tokens (i + 1)
            let (_, i) ← expectI tokens i .identifier none
            (pure (skipNlI tokens i) : Except String Nat)
          else pure i
        let i := if peekIsI tokens i .punctuation (some ",") then skipNlI tokens (i + 1) else i
        exportBraceLoopF n tokens i (names ++ [name.value])
    else .ok (names, i)

/-- The main `while (i < tokens.length)` scan of `extractImports`. -/
def extractImportsLoopF : Nat → List Tok → Nat → List ImportStatement →
    Except String (List ImportStatement)
  | 0, _, _, _ => .error "fuel exhausted"
  | n + 1, tokens, i, acc =>
    if i < tokens.length then
      match tokens.get? i with
      | none => .ok acc
      | some token =>
        if token.type == TokType.eof then .ok acc
        else if token.type == TokType.keyword && token.value == "import" then do
          let i := skipNlI tokens (i + 1)
          let i := if peekIsI tokens i .keyword (some "type") then skipNlI tokens (i + 1) else i
          let (importedNames, isDefault, isNamespace, namespaceAlias, i) ←
            if peekIsI tokens i .punctuation (some "*") then do
              let i := skipNlI tokens (i + 1)
              let (_, i) ← expectI tokens i .keyword (some "as")
              let i := skipNlI tokens i
              let (aliasTok, i) ← expectI tokens i .identifier none
              (pure (["*"], false, true, some aliasTok.value, i) :
                Except String (List String × Bool × Bool × Option String × Nat))
            else if peekIsI tokens i .punctuation (some "\x7b") then do
              let i := skipNlI tokens (i + 1)
              let (names, i) ← importBraceLoopF n tokens i []
              let (_, i) ← expectI tokens i .punctuation (some "\x7d")
              pure (names, false, false, none, i)
            else if peekIsI tokens i .identifier none then do
              let (name, i) ← expectI tokens i .identifier none
              pure ([name.value], true, false, none, i)
            else pure ([], false, false, none, i)
          let i := skipNlI tokens i
          let (acc, i) ←
            if peekIsI tokens i .keyword (some "from") then do
              let (_, i) ← expectI tokens i .keyword (some "from")
              let i := skipNlI tokens i
              let (pathToken, i) ← expectI tokens i .string none
              (pure (acc ++ [⟨importedNames, pathToken.value, isDefault, isNamespace,
                namespaceAlias⟩], i) :
                Except String (List ImportStatement × Nat))
            else pure (acc, i)
          let i := skipNlI tokens i
          let i := if peekIsI tokens i .punctuation (some ";") then i + 1 else i
          extractImportsLoopF n tokens i acc
        else if token.type == TokType.keyword && token.value == "export" then do
          let i := skipNlI tokens (i + 1)
          let i := if peekIsI tokens i .keyword (some "type") then skipNlI tokens (i + 1) else i
          if peekIsI tokens i .punctuation (some "*") then do
            let i := skipNlI tokens (i + 1)
            if peekIsI tokens i .keyword (some "from") then do
              let i := skipNlI tokens (i + 1)
              let (pathToken, i) ← expectI tokens i .string none
              let i := skipNlI tokens i
              let i := if peekIsI tokens i .punctuation (some ";") then i + 1 else i
              extractImportsLoopF n tokens i
                (acc ++ [⟨["*"], pathToken.value, false, true, none⟩])
            else extractImportsLoopF n tokens i acc
          else if peekIsI tokens i .punctuation (some "\x7b") then do
            let i := skipNlI tokens (i + 1)
            let (importedNames, i) ← exportBraceLoopF n tokens i []
            let i := if peekIsI tokens i .punctuation (some "\x7d") then i + 1 else i
            let i := skipNlI tokens i
            if peekIsI tokens i .keyword (some "from") then do
              let i := skipNlI tokens (i + 1)
              let (pathToken, i) ← expectI tokens i .string none
              let i := skipNlI tokens i
              let i := if peekIsI tokens i .punctuation (some ";") then i + 1 else i
              extractImportsLoopF n tokens i
                (acc ++ [⟨importedNames, pathToken.value, false, false, none⟩])
            else extractImportsLoopF n tokens i acc
          else extractImportsLoopF n tokens i acc
        else extractImportsLoopF n tokens (i + 1) acc
    else .ok acc

/-- `extractImports(tokens)` with ample fuel. -/
def extractImports (tokens : List Tok) : Except String (List ImportStatement) :=
  extractImportsLoopF ((tokens.length + 1) * 8) tokens 0 []

/-! # Path utilities and module resolver (src/path-utils.ts, the
ModuleResolver of src/ast.ts)

The file system is abstracted as a table of regular files keyed by
absolute POSIX path: each entry carries the declarations and import
specifiers that reading + tokenizing + `extractImports` + parsing that
file would produce (one table lookup = one read-tokenize-parse visit;
`readLog` records these events and `argLog` records `resolveModule` body
entries). -/

structure MFile where
  decls : List Declaration
  imports : List String

/-- The abstract file system: absolute path → file. -/
abbrev FSModel := List (String × MFile)

/-- Path segments of an absolute POSIX path. -/
def splitSegs (p : String) : List String :=
  (splitS '/' p).filter (fun s => s ≠ "")

def joinAbs (segs : List String) : String :=
  "/" ++ String.intercalate "/" segs

/-- `path.dirname` for absolute POSIX paths. -/
def dirnameP (p : String) : String := joinAbs (splitSegs p).dropLast

/-- `path.resolve(fromDir, importPath)` for an absolute base and a
relative specifier (the only shape the resolver produces). -/
def pathResolve (baseDir : String) (rel : String) : String :=
  joinAbs ((splitSegs rel).foldl (fun acc seg =>
    if seg = "." then acc
    else if seg = ".." then acc.dropLast
    else acc ++ [seg]) (splitSegs baseDir))

/-- `isRelativeImport`. -/
def isRelativeImport (importPath : String) : Bool :=
  match importPath.toList with
  | '.' :: '/' :: _ => true
  | '.' :: '.' :: '/' :: _ => true
  | _ => false

/-- `resolveNodeModule`: walks parent directories looking for
`node_modules/<pkg>` via `fs.existsSync`.  The abstract file table holds
no `node_modules` entries, so on this model the walk finds nothing and
the function returns `null`, exactly as the source would. -/
def resolveNodeModule (_fs : FSModel) (_importPath _fromFilePath : String) :
    Option String := none

/-- `resolveImportPath(importPath, fromFilePath, followMode)`. -/
def resolveImportPath (fs : FSModel) (importPath fromFilePath followMode : String) :
    Option String :=
  if followMode = "none" then none
  else if followMode = "local" ∧ ¬ isRelativeImport importPath then none
  else if isRelativeImport importPath then
    some (pathResolve (dirnameP fromFilePath) importPath)
  else if followMode = "all" then
    resolveNodeModule fs importPath fromFilePath
  else none

/-- `resolveExtensions(basePath)`: exact file, then `.ts`, `.tsx`,
`.d.ts`, then `index` files. -/
def resolveExtensions (fs : FSModel) (basePath : String) : Option String :=
  if (jsGet fs basePath).isSome then some basePath
  else if (jsGet fs (basePath ++ ".ts")).isSome then some (basePath ++ ".ts")
  else if (jsGet fs (basePath ++ ".tsx")).isSome then some (basePath ++ ".tsx")
  else if (jsGet fs (basePath ++ ".d.ts")).isSome then some (basePath ++ ".d.ts")
  else if (jsGet fs (basePath ++ "/index.ts")).isSome then some (basePath ++ "/index.ts")
  else if (jsGet fs (basePath ++ "/index.tsx")).isSome then some (basePath ++ "/index.tsx")
  else if (jsGet fs (basePath ++ "/index.d.ts")).isSome then some (basePath ++ "/index.d.ts")
  else none

structure ResolvedModule where
  filePath : String
  declarations : List Declaration
  imports : List String

/-- Resolver state: `visited` (pre-resolution argument paths), `modules`
(keyed by resolved path), a log of read-tokenize-parse events and a log
of `resolveModule` body entries. -/
structure RSt where
  visited : List String
  modules : List (String × ResolvedModule)
  readLog : List String
  argLog : List String

inductive RRes where
  | fuelOut
  | err (msg : String)
  | ok (st : RSt)

mutual

/-- `ModuleResolver.resolveModule(filePath)`.  Note the cycle guard keys
on the *argument* path, while `modules` keys on the *extension-resolved*
path. -/
def resolveModuleF (fs : FSModel) (mode : String) : Nat → RSt → String → RRes
  | 0, _, _ => .fuelOut
  | n + 1, st, filePath =>
    if st.visited.contains filePath then .ok st
    else
      let st := { st with
        visited := filePath :: st.visited,
        argLog := st.argLog ++ [filePath] }
      match resolveExtensions fs filePath with
      | none => .err ("Cannot resolve module: " ++ filePath)
      | some resolvedPath =>
        match jsGet fs resolvedPath with
        | none => .err ("Failed to read file " ++ resolvedPath)
        | some file =>
          let st := { st with
            readLog := st.readLog ++ [resolvedPath],
            modules := jsSet st.modules resolvedPath
              ⟨resolvedPath, file.decls, file.imports⟩ }
          resolveImportsLoopF fs mode n st resolvedPath file.imports
termination_by structural n => n

/-- The `for (const imp of imports)` recursion of `resolveModule`. -/
def resolveImportsLoopF (fs : FSModel) (mode : String) : Nat → RSt → String →
    List String → RRes
  | 0, _, _, _ => .fuelOut
  | _ + 1, st, _, [] => .ok st
  | n + 1, st, resolvedPath, imp :: rest =>
    match resolveImportPath fs imp resolvedPath mode with
    | none => resolveImportsLoopF fs mode n st resolvedPath rest
    | some r =>
      match resolveModuleF fs mode n st r with
      | .ok st' => resolveImportsLoopF fs mode n st' resolvedPath rest
      | e => e
termination_by structural n => n

end

/-- One step of `mergeDeclarations`' collision handling, over the
(file, declaration) pairs in discovery order; returns the kept pairs and
the `console.warn` messages. -/
def mergeFold (duplicateMode : String) : List (String × Declaration) →
    List (String × String) → Except String (List (String × Declaration) × List String)
  | [], _ => .ok ([], [])
  | (fp, d) :: rest, nameMap =>
    match jsGet nameMap d.name with
    | some existing =>
      if existing ≠ fp then
        let errorMsg := "Duplicate declaration \"" ++ d.name ++ "\" found in:\n  " ++
          existing ++ "\n  " ++ fp
        if duplicateMode = "error" then .error errorMsg
        else do
          let (tl, ws) ← mergeFold duplicateMode rest nameMap
          if duplicateMode = "warn" then
            .ok (tl, ("[ts-source-to-json-schema] Warning: " ++ errorMsg ++
              "\nUsing first declaration from: " ++ existing) :: ws)
          else .ok (tl, ws)
      else do
        let (tl, ws) ← mergeFold duplicateMode rest (jsSet nameMap d.name fp)
        .ok ((fp, d) :: tl, ws)
    | none => do
      let (tl, ws) ← mergeFold duplicateMode rest (jsSet nameMap d.name fp)
      .ok ((fp, d) :: tl, ws)

/-- `mergeDeclarations()` (the declarations of every stored module, in
module insertion order). -/
def mergeDeclarations (modules : List (String × ResolvedModule))
    (duplicateMode : String) : Except String (List Declaration × List String) :=
  (mergeFold duplicateMode
    (modules.flatMap (fun kv => kv.2.declarations.map (fun d => (kv.1, d)))) []).map
    (fun r => (r.1.map Prod.snd, r.2))

inductive ResolveOutcome where
  | fuelOut
  | err (msg : String)
  | ok (decls : List Declaration) (warnings : List String) (st : RSt)

/-- `ModuleResolver.resolveFromEntry(entryPath)` (the entry path is given
in absolute form, as `path.resolve` normalizes it). -/
def resolveFromEntry (fs : FSModel) (followMode duplicateMode entryPath : String)
    (fuel : Nat) : ResolveOutcome :=
  match resolveModuleF fs followMode fuel ⟨[], [], [], []⟩ entryPath with
  | .fuelOut => .fuelOut
  | .err m => .err m
  | .ok st =>
    match mergeDeclarations st.modules duplicateMode with
    | .error m => .err m
    | .ok (decls, ws) => .ok decls ws st

/-! # Claim verification

Each audited claim is settled by one theorem below; corrected claims
additionally carry a closed counterexample theorem, and
hypothesis-bearing theorems carry a closed witness theorem. -/

/-! ## C10: duplicate names within one source string -/

/-- `jsGet` after the Emitter constructor's `Map.set` fold: the lookup
finds the last declaration carrying the name (later `set` calls
overwrite in place). -/
theorem jsGet_foldl_jsSet (decls : List Declaration)
    (m : List (String × Declaration)) (nm : String) :
    jsGet (decls.foldl (fun acc d => jsSet acc d.name d) m) nm =
      match decls.reverse.find? (fun d => d.name == nm) with
      | some d => some d
      | none => jsGet m nm := by
  induction decls generalizing m with
  | nil => simp
  | cons d ds ih =>
    simp only [List.foldl_cons, List.reverse_cons, ih]
    rw [List.find?_append]
    cases hfind : ds.reverse.find? (fun d => d.name == nm) with
    | some d2 => rfl
    | none =>
      by_cases hname : d.name = nm
      · have hpd : (d.name == nm) = true := by simp [hname]
        simp [List.find?, hpd, hname, jsGet_jsSet_self]
      · have hpd : (d.name == nm) = false := by simp [hname]
        simp [List.find?, hpd, jsGet_jsSet_other _ _ _ _ (Ne.symm hname)]

/-- C10: the Emitter constructor keys declarations by name in a `Map`
without any diagnostic, so a later top-level declaration with the same
name silently overwrites an earlier one: every lookup in the built
declaration map returns the textually last declaration of that name, and
on a source string with two declarations of `A` the emitted schema for
`A` comes from the second one — the opposite of the resolver's
keep-first rule for cross-file duplicates. -/
theorem C10_last_declaration_wins :
    (∀ (decls : List Declaration) (nm : String),
      jsGet (buildDeclMap decls) nm =
        decls.reverse.find? (fun d => d.name == nm)) ∧
    toJsonSchema "interface A \x7b x: string \x7d\ninterface A \x7b y: number \x7d"
      { includeSchema := some false } =
      .ok (some (.obj [("$defs", .obj [("A", .obj [("type", .str "object"),
        ("properties", .obj [("y", .obj [("type", .str "number")])]),
        ("required", .arr [.str "y"])])])])) := by
  constructor
  · intro decls nm
    have h := jsGet_foldl_jsSet decls [] nm
    rw [buildDeclMap, h]
    cases decls.reverse.find? (fun d => d.name == nm) <;> simp [jsGet]
  · rfl

/-! ## C7: the import extractor's failure behaviour -/

/-- The main scan of `extractImports` returns its accumulator untouched
on a stream without `import`/`export` keyword tokens. -/
theorem extractImportsLoopF_no_kw (fuel : Nat) :
    ∀ (tokens : List Tok) (i : Nat) (acc : List ImportStatement),
    tokens.length - i < fuel →
    (∀ t ∈ tokens, t.type = TokType.keyword →
      t.value ≠ "import" ∧ t.value ≠ "export") →
    extractImportsLoopF fuel tokens i acc = .ok acc := by
  induction fuel with
  | zero =>
    intro tokens i acc h
    omega
  | succ fuel ih =>
    intro tokens i acc hlt hkw
    rw [extractImportsLoopF]
    by_cases hi : i < tokens.length
    · simp only [if_pos hi]
      obtain ⟨t, ht⟩ : ∃ t, tokens.get? i = some t := by
        rw [List.get?_eq_get hi]
        exact ⟨_, rfl⟩
      have htm : t ∈ tokens := by
        have := List.get?_mem ht
        exact this
      rw [ht]
      by_cases heof : t.type = TokType.eof
      · simp [heof]
      · have himp : ¬ (t.type = TokType.keyword ∧ t.value = "import") := by
          rintro ⟨h1, h2⟩
          exact (hkw t htm h1).1 h2
        have hexp : ¬ (t.type = TokType.keyword ∧ t.value = "export") := by
          rintro ⟨h1, h2⟩
          exact (hkw t htm h1).2 h2
        have h1 : (t.type == TokType.eof) = false := by
          simp [heof]
        have h2 : (t.type == TokType.keyword && t.value == "import") = false := by
          by_cases hk : t.type = TokType.keyword
          · have hv : t.value ≠ "import" := fun hv => himp ⟨hk, hv⟩
            simp [hk, hv]
          · simp [hk]
        have h3 : (t.type == TokType.keyword && t.value == "export") = false := by
          by_cases hk : t.type = TokType.keyword
          · have hv : t.value ≠ "export" := fun hv => hexp ⟨hk, hv⟩
            simp [hk, hv]
          · simp [hk]
        simp only [h1, h2, h3, Bool.false_eq_true, if_false]
        exact ih tokens (i + 1) acc (by omega) hkw
    · simp [if_neg hi]

/-- C7 (amended): `extractImports` is total Lean-side but *does* throw on
malformed import syntax (see the counterexample); what is true is that a
token stream containing no `import`/`export` keyword at all is scanned
to the end without any exception and yields no imports, and a well-formed
brace import is extracted. -/
theorem C7_extractImports_behaviour :
    (∀ tokens : List Tok,
      (∀ t ∈ tokens, t.type = TokType.keyword →
        t.value ≠ "import" ∧ t.value ≠ "export") →
      extractImports tokens = .ok []) ∧
    extractImports (tokenize "import \x7b Pet, Dog \x7d from \"./pet\";") =
      .ok [⟨["Pet", "Dog"], "./pet", false, false, none⟩] := by
  constructor
  · intro tokens h
    exact extractImportsLoopF_no_kw _ tokens 0 [] (by omega) h
  · rfl

/-- C7 counterexample: on `import { 1 } from "x"` the extractor's
`expect` throws (`Except.error`), so `extractImports` does *not* return
normally on every malformed import-like statement. -/
theorem C7_counterexample :
    extractImports (tokenize "import \x7b 1 \x7d from \"x\"") =
      .error "Expected identifier but got number \"1\"" := by
  rfl


/-! ## C8/C9: the module resolver on cycles and duplicate names -/

/-- `(e >>= f) = .ok b` splits into the two successful steps. -/
theorem except_bind_ok {ε α β : Type} (e : Except ε α) (f : α → Except ε β) (b : β) :
    (e >>= f) = .ok b ↔ ∃ a, e = .ok a ∧ f a = .ok b := by
  cases e <;> simp [Bind.bind, Except.bind]

def declA : Declaration := .interface "A" none [] none none none true
def declB : Declaration := .interface "B" none [] none none none true

/-- Two files importing each other: the canonical resolver cycle. -/
def cycFS : FSModel :=
  [("/p/A.ts", ⟨[declA], ["./B"]⟩), ("/p/B.ts", ⟨[declB], ["./A"]⟩)]

/-- One file declaring the same interface name twice. -/
def dupFS : FSModel := [("/p/D.ts", ⟨[declA, declA], []⟩)]

/-- Every pair kept by `mergeDeclarations`' fold comes from the file its
pending name map records for the name — at the top level, from the first
file in discovery order declaring the name. -/
theorem mergeFold_keepFirst (dm : String) :
    ∀ (L : List (String × Declaration)) (nameMap : List (String × String))
      (kept : List (String × Declaration)) (ws : List String),
    mergeFold dm L nameMap = .ok (kept, ws) →
    ∀ p ∈ kept,
      match jsGet nameMap p.2.name with
      | some f => p.1 = f
      | none => (L.find? (fun q => q.2.name == p.2.name)).map Prod.fst = some p.1 := by
  intro L
  induction L with
  | nil =>
    intro nameMap kept ws h p hp
    rw [mergeFold] at h
    cases h
    cases hp
  | cons hd rest ih =>
    obtain ⟨fp, d⟩ := hd
    intro nameMap kept ws h p hp
    rw [mergeFold] at h
    cases hg : jsGet nameMap d.name with
    | some existing =>
      rw [hg] at h
      dsimp only [] at h
      by_cases hex : existing ≠ fp
      · rw [if_pos hex] at h
        by_cases herr : dm = "error"
        · rw [if_pos herr] at h
          cases h
        · rw [if_neg herr] at h
          rw [except_bind_ok] at h
          obtain ⟨⟨tl, ws1⟩, hrec, h⟩ := h
          dsimp only [] at h
          have hkept : kept = tl := by
            by_cases hw : dm = "warn"
            · rw [if_pos hw] at h
              cases h
              rfl
            · rw [if_neg hw] at h
              cases h
              rfl
          have hp2 : p ∈ tl := hkept ▸ hp
          have hIH := ih nameMap tl ws1 hrec p hp2
          cases hg2 : jsGet nameMap p.2.name with
          | some f =>
            rw [hg2] at hIH
            dsimp only [] at hIH ⊢
            exact hIH
          | none =>
            rw [hg2] at hIH
            dsimp only [] at hIH ⊢
            have hq : (d.name == p.2.name) = false := by
              have hq0 : d.name ≠ p.2.name := by
                intro hq1
                rw [hq1, hg2] at hg
                cases hg
              simp [hq0]
            simp only [List.find?_cons, hq]
            exact hIH
      · push_neg at hex
        rw [if_neg (by simp [hex])] at h
        rw [except_bind_ok] at h
        obtain ⟨⟨tl, ws1⟩, hrec, h⟩ := h
        dsimp only [] at h
        have hkept : kept = (fp, d) :: tl := by
          cases h
          rfl
        subst hkept
        rcases List.mem_cons.mp hp with rfl | hmem
        · dsimp only []
          rw [hg]
          exact hex.symm
        · have hIH := ih (jsSet nameMap d.name fp) tl ws1 hrec p hmem
          by_cases hq : p.2.name = d.name
          · rw [hq, jsGet_jsSet_self] at hIH
            dsimp only [] at hIH
            rw [hq, hg]
            dsimp only []
            rw [hIH, hex]
          · rw [jsGet_jsSet_other _ _ _ _ hq] at hIH
            cases hg2 : jsGet nameMap p.2.name with
            | some f =>
              rw [hg2] at hIH
              dsimp only [] at hIH ⊢
              exact hIH
            | none =>
              rw [hg2] at hIH
              dsimp only [] at hIH ⊢
              have hne : (d.name == p.2.name) = false := by
                have hq0 : d.name ≠ p.2.name := fun hh => hq hh.symm
                simp [hq0]
              simp only [List.find?_cons, hne]
              exact hIH
    | none =>
      rw [hg] at h
      rw [except_bind_ok] at h
      obtain ⟨⟨tl, ws1⟩, hrec, h⟩ := h
      dsimp only [] at h
      have hkept : kept = (fp, d) :: tl := by
        cases h
        rfl
      subst hkept
      rcases List.mem_cons.mp hp with rfl | hmem
      · dsimp only []
        rw [hg]
        dsimp only []
        have hrefl : (d.name == d.name) = true := by simp
        simp only [List.find?_cons, hrefl]
        rfl
      · have hIH := ih (jsSet nameMap d.name fp) tl ws1 hrec p hmem
        by_cases hq : p.2.name = d.name
        · rw [hq, jsGet_jsSet_self] at hIH
          dsimp only [] at hIH
          rw [hq, hg]
          dsimp only []
          have hrefl : (d.name == d.name) = true := by simp
          simp only [List.find?_cons, hrefl]
          rw [hIH]
          rfl
        · rw [jsGet_jsSet_other _ _ _ _ hq] at hIH
          cases hg2 : jsGet nameMap p.2.name with
          | some f =>
            rw [hg2] at hIH
            dsimp only [] at hIH ⊢
            exact hIH
          | none =>
            rw [hg2] at hIH
            dsimp only [] at hIH ⊢
            have hne : (d.name == p.2.name) = false := by
              have hq0 : d.name ≠ p.2.name := fun hh => hq hh.symm
              simp [hq0]
            simp only [List.find?_cons, hne]
            exact hIH

/-- In `error` collision mode a successful merge keeps every pair. -/
theorem mergeFold_error_keeps_all :
    ∀ (L : List (String × Declaration)) (nameMap : List (String × String))
      (r : List (String × Declaration) × List String),
    mergeFold "error" L nameMap = .ok r → r.1 = L := by
  intro L
  induction L with
  | nil =>
    intro nameMap r h
    rw [mergeFold] at h
    cases h
    rfl
  | cons hd rest ih =>
    obtain ⟨fp, d⟩ := hd
    intro nameMap r h
    rw [mergeFold] at h
    cases hg : jsGet nameMap d.name with
    | some existing =>
      rw [hg] at h
      dsimp only [] at h
      by_cases hex : existing ≠ fp
      · rw [if_pos hex, if_pos rfl] at h
        cases h
      · rw [if_neg hex] at h
        rw [except_bind_ok] at h
        obtain ⟨⟨tl, ws1⟩, hrec, h⟩ := h
        dsimp only [] at h
        cases h
        have htl : tl = rest := ih _ _ hrec
        show (fp, d) :: tl = (fp, d) :: rest
        rw [htl]
    | none =>
      rw [hg] at h
      rw [except_bind_ok] at h
      obtain ⟨⟨tl, ws1⟩, hrec, h⟩ := h
      dsimp only [] at h
      cases h
      have htl : tl = rest := ih _ _ hrec
      show (fp, d) :: tl = (fp, d) :: rest
      rw [htl]

/-- In `silent` collision mode a successful merge emits no warning. -/
theorem mergeFold_silent_no_warn :
    ∀ (L : List (String × Declaration)) (nameMap : List (String × String))
      (r : List (String × Declaration) × List String),
    mergeFold "silent" L nameMap = .ok r → r.2 = [] := by
  intro L
  induction L with
  | nil =>
    intro nameMap r h
    rw [mergeFold] at h
    cases h
    rfl
  | cons hd rest ih =>
    obtain ⟨fp, d⟩ := hd
    intro nameMap r h
    rw [mergeFold] at h
    cases hg : jsGet nameMap d.name with
    | some existing =>
      rw [hg] at h
      dsimp only [] at h
      by_cases hex : existing ≠ fp
      · rw [if_pos hex, if_neg (by decide)] at h
        rw [except_bind_ok] at h
        obtain ⟨⟨tl, ws1⟩, hrec, h⟩ := h
        dsimp only [] at h
        rw [if_neg (by decide)] at h
        cases h
        exact ih _ _ hrec
      · rw [if_neg hex] at h
        rw [except_bind_ok] at h
        obtain ⟨⟨tl, ws1⟩, hrec, h⟩ := h
        dsimp only [] at h
        cases h
        exact ih _ (tl, ws1) hrec
    | none =>
      rw [hg] at h
      rw [except_bind_ok] at h
      obtain ⟨⟨tl, ws1⟩, hrec, h⟩ := h
      dsimp only [] at h
      cases h
      exact ih _ (tl, ws1) hrec

/-- `List.contains` agrees with membership on strings. -/
theorem contains_iff_memS (l : List String) (a : String) :
    l.contains a = true ↔ a ∈ l := by
  induction l with
  | nil => simp
  | cons b t ih => simp [List.contains_cons, ih, beq_iff_eq]

/-- C9 (amended): a successful merge does *not* guarantee pairwise
distinct names — duplicates inside one file are kept (see
`C9_counterexample`).  What holds: every kept pair comes from the first
file (in discovery order) declaring its name; in `error` mode success
implies every pair was kept and any two same-named pairs come from the
same file (so genuine cross-file duplicates always throw); `silent` mode
emits no warnings; and the concrete cross-file duplicate under `warn`
keeps the first declaration and logs the diagnostic naming both files. -/
theorem C9_merge_behaviour :
    (∀ (dm : String) (L : List (String × Declaration))
      (kept : List (String × Declaration)) (ws : List String),
      mergeFold dm L [] = .ok (kept, ws) →
      ∀ p ∈ kept, (L.find? (fun q => q.2.name == p.2.name)).map Prod.fst = some p.1) ∧
    (∀ (L : List (String × Declaration)) (kept : List (String × Declaration))
      (ws : List String),
      mergeFold "error" L [] = .ok (kept, ws) →
      kept = L ∧ ∀ p ∈ L, ∀ q ∈ L, p.2.name = q.2.name → p.1 = q.1) ∧
    (∀ (L : List (String × Declaration)) (kept : List (String × Declaration))
      (ws : List String),
      mergeFold "silent" L [] = .ok (kept, ws) → ws = []) ∧
    mergeDeclarations
      [("/p/X.ts", ⟨"/p/X.ts", [declA], []⟩), ("/p/Y.ts", ⟨"/p/Y.ts", [declA], []⟩)]
      "warn" =
      .ok ([declA],
        ["[ts-source-to-json-schema] Warning: Duplicate declaration \"A\" found in:\n  /p/X.ts\n  /p/Y.ts\nUsing first declaration from: /p/X.ts"]) := by
  have keepFirstNil : ∀ (dm : String) (L : List (String × Declaration)) kept ws,
      mergeFold dm L [] = .ok (kept, ws) →
      ∀ p ∈ kept, (L.find? (fun q => q.2.name == p.2.name)).map Prod.fst = some p.1 := by
    intro dm L kept ws h p hp
    have := mergeFold_keepFirst dm L [] kept ws h p hp
    dsimp only [jsGet] at this
    exact this
  refine ⟨keepFirstNil, ?_, ?_, ?_⟩
  · intro L kept ws h
    have hall : kept = L := mergeFold_error_keeps_all L [] (kept, ws) h
    refine ⟨hall, ?_⟩
    intro p hp q hq hpq
    have h1 := keepFirstNil "error" L kept ws h p (hall ▸ hp)
    have h2 := keepFirstNil "error" L kept ws h q (hall ▸ hq)
    rw [hpq] at h1
    rw [h1] at h2
    exact Option.some.inj h2
  · intro L kept ws h
    exact mergeFold_silent_no_warn L [] (kept, ws) h
  · rfl

/-- C9 counterexample: one file declaring interface `A` twice resolves
without any error under the `error` collision policy, and both copies
survive the merge — the returned declaration names are not pairwise
distinct. -/
theorem C9_counterexample :
    (match resolveFromEntry dupFS "local" "error" "/p/D.ts" 10 with
      | .ok ds _ _ => ds.map Declaration.name
      | _ => []) = ["A", "A"] := by
  rfl

/-- Resolver-state invariant: the body-entry log never repeats and stays
inside the visited set. -/
def RInv (st : RSt) : Prop :=
  st.argLog.Nodup ∧ ∀ p ∈ st.argLog, st.visited.contains p = true

/-- The visited-set guard of `resolveModule` preserves `RInv` and only
grows the visited set: every argument path enters the resolver body at
most once, which is what terminates cyclic import graphs. -/
theorem resolver_inv (fs : FSModel) (mode : String) :
    ∀ n : Nat,
    (∀ (st : RSt) (fp : String) (st2 : RSt),
      resolveModuleF fs mode n st fp = .ok st2 → RInv st →
      RInv st2 ∧ ∀ p, st.visited.contains p = true → st2.visited.contains p = true) ∧
    (∀ (st : RSt) (rp : String) (imps : List String) (st2 : RSt),
      resolveImportsLoopF fs mode n st rp imps = .ok st2 → RInv st →
      RInv st2 ∧ ∀ p, st.visited.contains p = true → st2.visited.contains p = true) := by
  intro n
  induction n with
  | zero =>
    constructor
    · intro st fp st2 h
      rw [resolveModuleF] at h
      cases h
    · intro st rp imps st2 h
      rw [resolveImportsLoopF] at h
      cases h
  | succ n ih =>
    constructor
    · intro st fp st2 h hinv
      rw [resolveModuleF] at h
      by_cases hv : st.visited.contains fp = true
      · rw [if_pos hv] at h
        cases h
        exact ⟨hinv, fun p hp => hp⟩
      · rw [if_neg hv] at h
        dsimp only [] at h
        cases hre : resolveExtensions fs fp with
        | none =>
          rw [hre] at h
          dsimp only [] at h
          cases h
        | some rp =>
          rw [hre] at h
          dsimp only [] at h
          cases hread : jsGet fs rp with
          | none =>
            rw [hread] at h
            dsimp only [] at h
            cases h
          | some file =>
            rw [hread] at h
            dsimp only [] at h
            have hfp_not : fp ∉ st.argLog := fun hmem => hv (hinv.2 fp hmem)
            have nodup2 : (st.argLog ++ [fp]).Nodup := by
              rw [List.nodup_append]
              refine ⟨hinv.1, List.nodup_singleton fp, ?_⟩
              intro p hp hq
              simp only [List.mem_singleton] at hq
              subst hq
              exact hfp_not hp
            have mem2 : ∀ p ∈ st.argLog ++ [fp],
                (fp :: st.visited).contains p = true := by
              intro p hp
              rcases List.mem_append.mp hp with hp | hp
              · have hc := hinv.2 p hp
                rw [List.contains_cons, hc, Bool.or_true]
              · simp only [List.mem_singleton] at hp
                subst hp
                rw [List.contains_cons, beq_self_eq_true, Bool.true_or]
            obtain ⟨hinv2, hmono2⟩ := ih.2 _ rp file.imports st2 h ⟨nodup2, mem2⟩
            refine ⟨hinv2, ?_⟩
            intro p hp
            refine hmono2 p ?_
            rw [List.contains_cons, hp, Bool.or_true]
    · intro st rp imps st2 h hinv
      cases imps with
      | nil =>
        rw [resolveImportsLoopF] at h
        cases h
        exact ⟨hinv, fun p hp => hp⟩
      | cons imp rest =>
        rw [resolveImportsLoopF] at h
        cases hri : resolveImportPath fs imp rp mode with
        | none =>
          rw [hri] at h
          dsimp only [] at h
          exact ih.2 st rp rest st2 h hinv
        | some r =>
          rw [hri] at h
          dsimp only [] at h
          cases hm : resolveModuleF fs mode n st r with
          | fuelOut =>
            rw [hm] at h
            dsimp only [] at h
            cases h
          | err m =>
            rw [hm] at h
            dsimp only [] at h
            cases h
          | ok st1 =>
            rw [hm] at h
            dsimp only [] at h
            obtain ⟨hinv1, hmono1⟩ := ih.1 st r st1 hm hinv
            obtain ⟨hinv2, hmono2⟩ := ih.2 st1 rp rest st2 h hinv1
            exact ⟨hinv2, fun p hp => hmono2 p (hmono1 p hp)⟩

/-- C8 (amended): resolution is guarded by a visited set keyed on the
*pre-extension-resolution argument path*, so each argument path enters
the resolver body at most once (`argLog` never repeats) — this is the
termination argument for cyclic imports — and on the canonical two-file
cycle with an extensionless entry the resolver terminates with each file
read (tokenized and parsed) exactly once.  Per-file exactly-once for
every entry spelling is refuted by `C8_counterexample`. -/
theorem C8_cycle_termination :
    (∀ (fs : FSModel) (followMode duplicateMode entryPath : String) (fuel : Nat)
      (ds : List Declaration) (ws : List String) (st : RSt),
      resolveFromEntry fs followMode duplicateMode entryPath fuel = .ok ds ws st →
      st.argLog.Nodup) ∧
    (match resolveFromEntry cycFS "local" "error" "/p/A" 10 with
      | .ok ds _ st => some (ds.map Declaration.name, st.readLog)
      | _ => none) = some (["A", "B"], ["/p/A.ts", "/p/B.ts"]) := by
  constructor
  · intro fs fm dm ep fuel ds ws st h
    rw [resolveFromEntry] at h
    cases hm : resolveModuleF fs fm fuel ⟨[], [], [], []⟩ ep with
    | fuelOut =>
      rw [hm] at h
      cases h
    | err m =>
      rw [hm] at h
      cases h
    | ok st0 =>
      rw [hm] at h
      dsimp only [] at h
      cases hmd : mergeDeclarations st0.modules dm with
      | error m =>
        rw [hmd] at h
        cases h
      | ok r =>
        obtain ⟨decls, ws1⟩ := r
        rw [hmd] at h
        dsimp only [] at h
        cases h
        have hinv0 : RInv ⟨[], [], [], []⟩ := ⟨List.nodup_nil, by intro p hp; cases hp⟩
        exact (((resolver_inv fs fm fuel).1 _ _ _ hm hinv0).1).1
  · rfl

/-- C8 counterexample: the same cycle entered at `/p/A.ts` (the entry
path carrying its extension) reads file `/p/A.ts` twice — the cycle
guard keys `/p/A.ts` (entry spelling) and `/p/A` (specifier resolution)
separately, so "each file is visited exactly once" fails. -/
theorem C8_counterexample :
    (match resolveFromEntry cycFS "local" "error" "/p/A.ts" 10 with
      | .ok _ _ st => st.readLog
      | _ => []) = ["/p/A.ts", "/p/B.ts", "/p/A.ts"] := by
  rfl

/-! ## C5: tokenizer robustness -/

/-- C5: for every input string the tokenizer returns normally with
monotone non-decreasing `(line, col)` positions and a token list that is
exactly a run of non-`eof` tokens followed by one `eof`; and a character
matching no token class (not whitespace, newline, comment start, quote,
backtick, digit, minus, word start or punctuation) is skipped without
emitting a token, only advancing the column. -/
theorem C5_tokenize_robust :
    (∀ s : String,
      List.Chain' (fun a b : Tok => posLE (a.line, a.col) (b.line, b.col)) (tokenize s) ∧
      ∃ ts pl pc, tokenize s = ts ++ [⟨.eof, "", pl, pc⟩] ∧
        ∀ t ∈ ts, t.type ≠ TokType.eof) ∧
    (∀ (fuel : Nat) (c : Char) (cs : List Char) (l co : Nat),
      isWsNoNl c = false → c ≠ '\n' → c ≠ '/' → c ≠ '"' → c ≠ '\'' → c ≠ '`' →
      isDigitCh c = false → c ≠ '-' → isWordStart c = false → isPunctCh c = false →
      tokLoopF (fuel + 1) (c :: cs) l co = tokLoopF fuel cs l (co + 1)) := by
  constructor
  · intro s
    have h := tokLoopF_spec_aux (s.toList.length + 1) s.toList (Nat.lt_succ_self _) 1 1
    exact ⟨h.2.1, h.2.2⟩
  · intro fuel c cs l co hws hnl hsl hq1 hq2 hbt hdg hmn hw hp
    have hskip : skipWs (c :: cs) l co = (c :: cs, l, co) := by
      rw [skipWs, if_neg (by simp [hws])]
    have hstep : tstepCore c cs l co =
        (none, cs, (advPos c l co).1, (advPos c l co).2) := by
      have h2 : ¬(c = '/' ∧ cs.head? = some '*' ∧ cs.tail.head? = some '*' ∧
          cs.tail.tail.head? ≠ some '/') := fun hh => hsl hh.1
      have h3 : ¬(c = '/' ∧ cs.head? = some '*') := fun hh => hsl hh.1
      have h4 : ¬(c = '/' ∧ cs.head? = some '/') := fun hh => hsl hh.1
      have h5 : ¬(c = '"' ∨ c = '\'') := fun hh => hh.elim hq1 hq2
      have h8 : ¬(c = '-' ∧ (cs.head?.map isDigitCh).getD false) := fun hh => hmn hh.1
      simp only [tstepCore, if_neg hnl, if_neg h2, if_neg h3, if_neg h4, if_neg h5,
        if_neg hbt, if_neg (show ¬(isDigitCh c = true) by simp [hdg]), if_neg h8,
        if_neg (show ¬(isWordStart c = true) by simp [hw]),
        if_neg (show ¬(isPunctCh c = true) by simp [hp])]
    rw [tokLoopF, hskip]
    dsimp only []
    rw [hstep]
    dsimp only []
    rw [show advPos c l co = (l, co + 1) from by rw [advPos, if_neg hnl]]

/-! ## C4: union emission -/

/-- Modelled from the spec (§4.5.5 Unions), the second definition of the
refinement claim C4: flatten nested unions; an all-string-literal union
becomes a string enum and an all-number-literal union a number enum;
otherwise, when after removing `null`/`undefined` members exactly one
member remains and at least one member was removed, that member's schema
is made nullable (a `[T, "null"]` type list when its `type` is a single
string, a wrapping `anyOf` otherwise); otherwise `anyOf` of the
flattened members' schemas. -/
def emitUnionSpec (emitMember : TypeNode → Option Json)
    (members : List TypeNode) : Option Json :=
  let flat := flattenUnion members
  if flat.all isLitStr then
    some (.obj [("type", .str "string"), ("enum", .arr (flat.map litStrVal))])
  else if flat.all isLitNum then
    some (.obj [("type", .str "number"), ("enum", .arr (flat.map litNumVal))])
  else
    let nonNull := flat.filter (fun m => ¬ isNullOrUndef m)
    if nonNull.length = 1 ∧ nonNull.length < flat.length then
      match nonNull with
      | [m] => do
        let schema ← emitMember m
        match schema.getField "type" with
        | some (.str t) => pure (schema.setField "type" (.arr [.str t, .str "null"]))
        | _ => pure (.obj [("anyOf", .arr [schema, .obj [("type", .str "null")]])])
      | _ => do
        let schemas ← flat.mapM emitMember
        pure (.obj [("anyOf", .arr schemas)])
    else do
      let schemas ← flat.mapM emitMember
      pure (.obj [("anyOf", .arr schemas)])

/-- C4: `emitUnion` implements the spec's union rules exactly (for every
emitter, fuel and member list, with members emitted by `emitType` at the
inner fuel), and the concrete string-literal union scenario emits the
expected enum. -/
theorem C4_union_rules :
    (∀ (E : Emitter) (n : Nat) (members : List TypeNode),
      emitUnion E (n + 1) members = emitUnionSpec (emitType E n) members) ∧
    toJsonSchema "type Status = \"a\" | \"b\" | \"c\";" { includeSchema := some false } =
      .ok (some (.obj [("$defs", .obj [("Status", .obj [("type", .str "string"),
        ("enum", .arr [.str "a", .str "b", .str "c"])])])])) := by
  constructor
  · intro E n members
    rw [emitUnion, emitUnionSpec]
    dsimp only []
    by_cases h1 : (flattenUnion members).all isLitStr = true
    · rw [if_pos h1, if_pos h1]
    · rw [if_neg h1, if_neg h1]
      by_cases h2 : (flattenUnion members).all isLitNum = true
      · rw [if_pos h2, if_pos h2]
      · rw [if_neg h2, if_neg h2]
        cases hnn : (flattenUnion members).filter (fun m => ¬ isNullOrUndef m) with
        | nil =>
          rw [if_neg (by simp [hnn])]
        | cons m tail =>
          cases tail with
          | cons m2 t2 =>
            rw [if_neg (by simp [hnn])]
          | nil =>
            by_cases hany : (flattenUnion members).any isNullOrUndef = true
            · rw [hany]
              rw [if_pos ?side]
              case side =>
                refine ⟨by simp [hnn], ?_⟩
                rw [← hnn, List.length_filter_lt_length_iff_exists]
                simp only [List.any_eq_true] at hany
                obtain ⟨x, hx, hxn⟩ := hany
                exact ⟨x, hx, by simp [hxn]⟩
            · have hb : (flattenUnion members).any isNullOrUndef = false := by
                cases hh : (flattenUnion members).any isNullOrUndef
                · rfl
                · exact absurd hh hany
              rw [hb]
              rw [if_neg ?noside]
              case noside =>
                rintro ⟨-, hlt⟩
                rw [← hnn, List.length_filter_lt_length_iff_exists] at hlt
                obtain ⟨x, hx, hxn⟩ := hlt
                refine hany ?_
                rw [List.any_eq_true]
                refine ⟨x, hx, ?_⟩
                by_cases hxx : isNullOrUndef x = true
                · exact hxx
                · exact absurd (by simp [hxx]) hxn
  · rfl

/-! ## C1: `Omit` in extends with a JSDoc tag (Scenario 4) -/

/-- `(some a) >>= f` reduces. -/
theorem option_some_bind {α β : Type} (a : α) (f : α → Option β) :
    ((some a : Option α) >>= f) = f a := rfl

/-- With no own properties and no index signature the object emission
always succeeds (with some object), whatever the declaration tags are. -/
theorem emitObjectType_nil_some (E : Emitter) (n : Nat)
    (tags : Option (List (String × String))) :
    ∃ kvs, emitObjectType E (n + 1) [] none tags = some (Json.obj kvs) := by
  rw [emitObjectType]
  simp only [List.mapM_nil, Option.pure_def, Option.some_bind]
  repeat' split
  all_goals exact ⟨_, rfl⟩

/-- The token stream of Scenario 4,
`interface Pet { _id:string; name:string; } /** @additionalProperties
false */ export interface PostPetReq extends Omit<Pet, "_id"> {}`,
as `tokenize` produces it. -/
def s4toks : List Tok :=
  [⟨.keyword, "interface", 1, 1⟩, ⟨.identifier, "Pet", 1, 11⟩, ⟨.punctuation, "\x7b", 1, 15⟩,
   ⟨.identifier, "_id", 1, 17⟩, ⟨.punctuation, ":", 1, 20⟩, ⟨.primitive, "string", 1, 21⟩,
   ⟨.punctuation, ";", 1, 27⟩, ⟨.identifier, "name", 1, 29⟩, ⟨.punctuation, ":", 1, 33⟩,
   ⟨.primitive, "string", 1, 34⟩, ⟨.punctuation, ";", 1, 40⟩, ⟨.punctuation, "\x7d", 1, 42⟩,
   ⟨.jsdoc, "@additionalProperties false", 1, 44⟩, ⟨.keyword, "export", 1, 79⟩,
   ⟨.keyword, "interface", 1, 86⟩, ⟨.identifier, "PostPetReq", 1, 96⟩,
   ⟨.keyword, "extends", 1, 107⟩, ⟨.identifier, "Omit", 1, 115⟩,
   ⟨.punctuation, "<", 1, 119⟩, ⟨.identifier, "Pet", 1, 120⟩, ⟨.punctuation, ",", 1, 123⟩,
   ⟨.string, "_id", 1, 125⟩, ⟨.punctuation, ">", 1, 130⟩, ⟨.punctuation, "\x7b", 1, 132⟩,
   ⟨.punctuation, "\x7d", 1, 133⟩, ⟨.eof, "", 1, 134⟩]

/-- Scenario 4 parsed: `PostPetReq`'s extends clause is one full
`TypeNode` (`Omit` applied to `Pet` and the literal `"_id"`), and the
JSDoc tag lands on the declaration. -/
def s4decls : List Declaration :=
  [.interface "Pet" none
     [⟨"_id", .primitive "string", false, false, none, none⟩,
      ⟨"name", .primitive "string", false, false, none, none⟩] none none none false,
   .interface "PostPetReq"
     (some [.reference "Omit" (some [.reference "Pet" none, .literal_string "_id"])])
     [] none (some "") (some [("additionalProperties", "false")]) true]

def opts4 : EmitterOptionsIn :=
  { includeSchema := some false, rootType := some "PostPetReq" }

/-- C1 (amended): an interface whose only content is a single extends
clause emits as that clause's schema alone — `emitInterface` unwraps the
one-element `allOf`, and the declaration's JSDoc tags never reach the
result (they are applied only to the discarded own-property schema), for
any emitter, fuel, extended type and tag set.  Concretely for
Scenario 4: the parser does accept `Omit<Pet, "_id">` as a full
`TypeNode` in the extends clause, and the emitted root resolves the
`Omit` (only `name` survives) — but it carries no `additionalProperties`
member, where the specification expects `additionalProperties: false`
(`C1_counterexample`). -/
theorem C1_extends_unwrap_drops_tags :
    (∀ (E : Emitter) (n : Nat) (t : TypeNode) (desc : Option String)
      (tags tags2 : Option (List (String × String))),
      emitInterface E (n + 1) (some [t]) [] none desc tags =
      emitInterface E (n + 1) (some [t]) [] none desc tags2) ∧
    parseTokens s4toks = .ok s4decls ∧
    (Emitter.make s4decls opts4).emit 256 =
      some (.obj [("type", .str "object"),
        ("properties", .obj [("name", .obj [("type", .str "string")])]),
        ("required", .arr [.str "name"]),
        ("$defs", .obj [("Pet", .obj [("type", .str "object"),
          ("properties", .obj [("_id", .obj [("type", .str "string")]),
            ("name", .obj [("type", .str "string")])]),
          ("required", .arr [.str "_id", .str "name"])])])]) := by
  refine ⟨?_, by rfl, by rfl⟩
  intro E n t desc tags tags2
  obtain ⟨k1, h1⟩ := emitObjectType_nil_some E n tags
  obtain ⟨k2, h2⟩ := emitObjectType_nil_some E n tags2
  rw [emitInterface, h1, option_some_bind]
  rw [emitInterface, h2, option_some_bind]
  dsimp only []
  rw [if_pos (show ([t] : List TypeNode).length > 0 from by simp)]
  rw [if_pos (show ([t] : List TypeNode).length > 0 from by simp)]
  congr 1

/-- C1 counterexample: Scenario 4's root schema has *no*
`additionalProperties` member at all, where the specification expects
`additionalProperties: false` from the `@additionalProperties` tag. -/
theorem C1_counterexample :
    (match (Emitter.make s4decls opts4).emit 256 with
      | some j => j.getField "additionalProperties"
      | none => some Json.null) = none := by
  rfl

/-! ## C2: the `additionalProperties` precedence chain -/

/-- `(x >>= f) = some b` splits into the two successful steps. -/
theorem option_bind_ok {α β : Type} (x : Option α) (f : α → Option β) (b : β) :
    (x >>= f) = some b ↔ ∃ a, x = some a ∧ f a = some b := by
  cases x <;> simp

/-- Modelled from the spec (§4.5.4), the second definition for the
refinement claim C2 — first match wins: an index signature emits its
value type; an `@additionalProperties true|false` tag (lower-cased,
ignored without `includeJSDoc`) gives that boolean; `strictObjects`
gives `false`; the `additionalProperties` option gives its boolean;
otherwise the field is absent. -/
def additionalPropertiesSpec (E : Emitter) (n : Nat)
    (indexSignature : Option IndexSignatureNode)
    (tags : Option (List (String × String))) : Option Json :=
  match indexSignature with
  | some isig => emitType E n isig.valueType
  | none =>
    match (if E.options.includeJSDoc then
        tags.bind (fun ts => jsGet ts "additionalProperties") else none).map lowerS with
    | some "true" => some (.jbool true)
    | some "false" => some (.jbool false)
    | _ =>
      if E.options.strictObjects then some (.jbool false)
      else
        match E.options.additionalProperties with
        | some b => some (.jbool b)
        | none => none

/-- The base object schema (type/properties/required) never carries an
`additionalProperties` member. -/
theorem jsGet_objSchema_ap (a : List (String × Json)) (r : List String)
    (c1 c2 : Prop) [Decidable c1] [Decidable c2] :
    jsGet (if c2 then
        jsSet (if c1 then [("type", Json.str "object")]
          else jsSet [("type", Json.str "object")] "properties" (Json.obj a))
          "required" (Json.arr (r.map Json.str))
      else (if c1 then [("type", Json.str "object")]
        else jsSet [("type", Json.str "object")] "properties" (Json.obj a)))
      "additionalProperties" = none := by
  split <;> split <;> simp [jsGet_jsSet_other, jsGet, jsSet]

/-- C2 (amended): inside `emitObjectType` — the path every interface and
inline object takes — the `additionalProperties` member follows the
spec's precedence chain exactly, provided any present tag value
lower-cases to `true` or `false` (a malformed tag value suppresses rules
3–5 in the code, see `C2_counterexample`).  Type-alias declarations are
*not* covered: their declaration-level tag is applied after emission and
overwrites rule 1 (also `C2_counterexample`). -/
theorem C2_additionalProperties_precedence
    (E : Emitter) (n : Nat) (props : List PropertyNode)
    (isig : Option IndexSignatureNode) (tags : Option (List (String × String)))
    (kvs : List (String × Json))
    (h : emitObjectType E (n + 1) props isig tags = some (Json.obj kvs))
    (htag : ∀ v, (if E.options.includeJSDoc then
        tags.bind (fun ts => jsGet ts "additionalProperties") else none) = some v →
        lowerS v = "true" ∨ lowerS v = "false") :
    jsGet kvs "additionalProperties" = additionalPropertiesSpec E n isig tags := by
  rw [emitObjectType] at h
  rw [option_bind_ok] at h
  obtain ⟨pairs, hm, h⟩ := h
  dsimp only [] at h
  cases isig with
  | some i =>
    dsimp only [] at h
    rw [option_bind_ok] at h
    obtain ⟨v, hv, h⟩ := h
    simp only [Option.pure_def, Option.some.injEq] at h
    obtain rfl : kvs = _ := (Json.obj.inj h.symm)
    rw [additionalPropertiesSpec]
    rw [jsGet_jsSet_self, hv]
  | none =>
    dsimp only [] at h
    cases htagv : (if E.options.includeJSDoc then
        tags.bind (fun ts => jsGet ts "additionalProperties") else none) with
    | some value =>
      rw [htagv] at h
      dsimp only [] at h
      rcases htag value htagv with hv | hv
      · rw [if_pos hv] at h
        simp only [Option.pure_def, Option.some.injEq] at h
        obtain rfl : kvs = _ := (Json.obj.inj h.symm)
        simp [additionalPropertiesSpec, htagv, hv, jsGet_jsSet_self]
      · by_cases hvt : lowerS value = "true"
        · rw [if_pos hvt] at h
          simp only [Option.pure_def, Option.some.injEq] at h
          obtain rfl : kvs = _ := (Json.obj.inj h.symm)
          simp [additionalPropertiesSpec, htagv, hvt, jsGet_jsSet_self]
        · rw [if_neg hvt, if_pos hv] at h
          simp only [Option.pure_def, Option.some.injEq] at h
          obtain rfl : kvs = _ := (Json.obj.inj h.symm)
          simp [additionalPropertiesSpec, htagv, hv, hvt, jsGet_jsSet_self]
    | none =>
      rw [htagv] at h
      dsimp only [] at h
      by_cases hstrict : E.options.strictObjects = true
      · rw [if_pos hstrict] at h
        simp only [Option.pure_def, Option.some.injEq] at h
        obtain rfl : kvs = _ := (Json.obj.inj h.symm)
        simp [additionalPropertiesSpec, htagv, hstrict, jsGet_jsSet_self]
      · rw [if_neg hstrict] at h
        cases hap : E.options.additionalProperties with
        | some b =>
          rw [hap] at h
          dsimp only [] at h
          simp only [Option.pure_def, Option.some.injEq] at h
          obtain rfl : kvs = _ := (Json.obj.inj h.symm)
          simp [additionalPropertiesSpec, htagv, hstrict, hap, jsGet_jsSet_self]
        | none =>
          rw [hap] at h
          dsimp only [] at h
          simp only [Option.pure_def, Option.some.injEq] at h
          obtain rfl : kvs = _ := (Json.obj.inj h.symm)
          rw [additionalPropertiesSpec]
          simp only [htagv, Option.map_none, hstrict, hap, if_neg hstrict]
          exact jsGet_objSchema_ap _ _ _ _
/-- C2 witness: at a concrete emitter (default options) with no index
signature and a declaration-level `@additionalProperties false` tag the
theorem instantiates, and both sides compute to `false`. -/
theorem C2_witness :
    jsGet [("type", Json.str "object"), ("additionalProperties", Json.jbool false)]
      "additionalProperties" =
      additionalPropertiesSpec (Emitter.make [] {}) 0 none
        (some [("additionalProperties", "false")]) := by
  exact C2_additionalProperties_precedence (Emitter.make [] {}) 0 [] none
    (some [("additionalProperties", "false")])
    [("type", Json.str "object"), ("additionalProperties", Json.jbool false)]
    (by rfl)
    (fun v hv => by
      have hv2 : some "false" = some v := hv
      cases hv2
      right
      rfl)

/-- C2 counterexample: (1) a type alias with an index signature *and* an
`@additionalProperties false` tag emits `additionalProperties: false` —
the declaration-level tag overwrites the index signature's value schema
`{type:"string"}` that rule 1 of the precedence prescribes; (2) with
`strictObjects` on and a malformed tag value (`@additionalProperties
maybe`) the field is *absent*, where rule 3 prescribes `false`. -/
theorem C2_counterexample :
    (match emitTypeAlias (Emitter.make [] {}) 3
        (.object [] (some ⟨.primitive "string", .primitive "string"⟩)) none
        (some [("additionalProperties", "false")]) with
      | some j => j.getField "additionalProperties"
      | none => none) = some (.jbool false) ∧
    (match emitObjectType (Emitter.make [] { strictObjects := some true }) 1 [] none
        (some [("additionalProperties", "maybe")]) with
      | some (.obj kvs) => jsGet kvs "additionalProperties"
      | _ => some Json.null) = none := by
  exact ⟨rfl, rfl⟩

/-! ## C6: `Pick` and `Omit` key filtering -/

/-- The property names of an emitted object schema (empty when the
schema has no `properties` member). -/
def schemaPropNames (kvs : List (String × Json)) : List String :=
  match jsGet kvs "properties" with
  | some (.obj pkvs) => pkvs.map Prod.fst
  | _ => []

/-- The base object schema (`type`/`properties`/`required`) that
`emitObjectType` assembles before the `additionalProperties` step. -/
def objSchemaBase (properties : List PropertyNode)
    (propPairs : List (String × Json)) : List (String × Json) :=
  let props := propPairs.foldl (fun m kv => jsSet m kv.1 kv.2) []
  let required := (properties.filter (fun p => ¬ p.optional)).map PropertyNode.name
  let schema : List (String × Json) := [("type", .str "object")]
  let schema := if props.isEmpty then schema else jsSet schema "properties" (.obj props)
  if required ≠ [] then jsSet schema "required" (.arr (required.map Json.str)) else schema

/-- A `mapM` whose element results carry the property's name as first
component yields pairs keyed by the property names, in order. -/
theorem mapM_fst (f : PropertyNode → Option (String × Json))
    (hf : ∀ p r, f p = some r → r.1 = p.name) :
    ∀ (props : List PropertyNode) (pairs : List (String × Json)),
    props.mapM f = some pairs → pairs.map Prod.fst = props.map PropertyNode.name := by
  intro props
  induction props with
  | nil =>
    intro pairs h
    simp only [List.mapM_nil, Option.pure_def, Option.some.injEq] at h
    rw [← h]
    rfl
  | cons p ps ih =>
    intro pairs h
    rw [List.mapM_cons] at h
    rw [option_bind_ok] at h
    obtain ⟨r, hr, h⟩ := h
    rw [option_bind_ok] at h
    obtain ⟨rs, hrs, h⟩ := h
    simp only [Option.pure_def, Option.some.injEq] at h
    rw [← h]
    simp only [List.map_cons]
    rw [hf p r hr, ih rs hrs]

/-- `jsSet` with a fresh key appends. -/
theorem jsSet_append {α : Type} (m : List (String × α)) (k : String) (v : α)
    (hk : k ∉ m.map Prod.fst) : jsSet m k v = m ++ [(k, v)] := by
  induction m with
  | nil => rfl
  | cons kv rest ih =>
    obtain ⟨k0, v0⟩ := kv
    simp only [List.map_cons, List.mem_cons] at hk
    push_neg at hk
    rw [jsSet, if_neg (fun hh => hk.1 hh.symm)]
    rw [ih hk.2]
    rfl

/-- Folding `jsSet` over pairwise-fresh keys records exactly those keys,
in order. -/
theorem foldl_jsSet_keys {α : Type} :
    ∀ (pairs m : List (String × α)),
    (m.map Prod.fst ++ pairs.map Prod.fst).Nodup →
    (pairs.foldl (fun acc kv => jsSet acc kv.1 kv.2) m).map Prod.fst =
      m.map Prod.fst ++ pairs.map Prod.fst := by
  intro pairs
  induction pairs with
  | nil =>
    intro m _
    simp
  | cons kv rest ih =>
    intro m hnd
    obtain ⟨k, v⟩ := kv
    simp only [List.map_cons] at hnd ⊢
    have hk : k ∉ m.map Prod.fst := by
      intro hmem
      exact (List.nodup_append.mp hnd).2.2 hmem (List.mem_cons_self _ _)
    rw [List.foldl_cons]
    dsimp only []
    rw [jsSet_append m k v hk]
    rw [ih (m ++ [(k, v)]) (by simpa using hnd)]
    simp

/-- Filtering properties by a Boolean predicate on names commutes with
taking names. -/
theorem map_filter_nameB (g : String → Bool) :
    ∀ props : List PropertyNode,
    (props.filter (fun p => g p.name)).map PropertyNode.name =
      (props.map PropertyNode.name).filter g := by
  intro props
  induction props with
  | nil => rfl
  | cons p ps ih =>
    cases hq : g p.name <;> simp [List.filter_cons, hq, ih]

/-- Every successful `emitObjectType` result is the base
`type`/`properties`/`required` schema, possibly extended by one
`additionalProperties` member, with the property pairs keyed by the
property names in order. -/
theorem emitObjectType_shape (E : Emitter) (n : Nat) (properties : List PropertyNode)
    (indexSignature : Option IndexSignatureNode) (tags : Option (List (String × String)))
    (kvs : List (String × Json))
    (h : emitObjectType E (n + 1) properties indexSignature tags = some (Json.obj kvs)) :
    ∃ propPairs : List (String × Json),
      propPairs.map Prod.fst = properties.map PropertyNode.name ∧
      (kvs = objSchemaBase properties propPairs ∨
        ∃ v, kvs = jsSet (objSchemaBase properties propPairs) "additionalProperties" v) := by
  rw [emitObjectType] at h
  rw [option_bind_ok] at h
  obtain ⟨pairs, hm, h⟩ := h
  have hnames : pairs.map Prod.fst = properties.map PropertyNode.name := by
    refine mapM_fst _ ?_ properties pairs hm
    intro p r hr
    rw [option_bind_ok] at hr
    obtain ⟨ps, hps, hr⟩ := hr
    dsimp only [] at hr
    simp only [Option.pure_def, Option.some.injEq] at hr
    rw [← hr]
  refine ⟨pairs, hnames, ?_⟩
  dsimp only [] at h
  cases indexSignature with
  | some i =>
    dsimp only [] at h
    rw [option_bind_ok] at h
    obtain ⟨v, hv, h⟩ := h
    simp only [Option.pure_def, Option.some.injEq] at h
    obtain rfl : kvs = _ := (Json.obj.inj h.symm)
    exact Or.inr ⟨v, rfl⟩
  | none =>
    dsimp only [] at h
    cases htagv : (if E.options.includeJSDoc then
        tags.bind (fun ts => jsGet ts "additionalProperties") else none) with
    | some value =>
      rw [htagv] at h
      dsimp only [] at h
      by_cases hvt : lowerS value = "true"
      · rw [if_pos hvt] at h
        simp only [Option.pure_def, Option.some.injEq] at h
        obtain rfl : kvs = _ := (Json.obj.inj h.symm)
        exact Or.inr ⟨_, rfl⟩
      · rw [if_neg hvt] at h
        by_cases hvf : lowerS value = "false"
        · rw [if_pos hvf] at h
          simp only [Option.pure_def, Option.some.injEq] at h
          obtain rfl : kvs = _ := (Json.obj.inj h.symm)
          exact Or.inr ⟨_, rfl⟩
        · rw [if_neg hvf] at h
          simp only [Option.pure_def, Option.some.injEq] at h
          obtain rfl : kvs = _ := (Json.obj.inj h.symm)
          exact Or.inl rfl
    | none =>
      rw [htagv] at h
      dsimp only [] at h
      by_cases hstrict : E.options.strictObjects = true
      · rw [if_pos hstrict] at h
        simp only [Option.pure_def, Option.some.injEq] at h
        obtain rfl : kvs = _ := (Json.obj.inj h.symm)
        exact Or.inr ⟨_, rfl⟩
      · rw [if_neg hstrict] at h
        cases hap : E.options.additionalProperties with
        | some b =>
          rw [hap] at h
          dsimp only [] at h
          simp only [Option.pure_def, Option.some.injEq] at h
          obtain rfl : kvs = _ := (Json.obj.inj h.symm)
          exact Or.inr ⟨_, rfl⟩
        | none =>
          rw [hap] at h
          dsimp only [] at h
          simp only [Option.pure_def, Option.some.injEq] at h
          obtain rfl : kvs = _ := (Json.obj.inj h.symm)
          exact Or.inl rfl

/-- Adding an `additionalProperties` member does not change the property
names of a schema. -/
theorem schemaPropNames_jsSet_ap (kvs : List (String × Json)) (v : Json) :
    schemaPropNames (jsSet kvs "additionalProperties" v) = schemaPropNames kvs := by
  rw [schemaPropNames, schemaPropNames, jsGet_jsSet_other _ _ _ _ (by decide)]

/-- The property names of a successful `emitObjectType` are exactly the
input property names, provided they are pairwise distinct. -/
theorem emitObjectType_propNames (E : Emitter) (n : Nat)
    (properties : List PropertyNode)
    (indexSignature : Option IndexSignatureNode) (tags : Option (List (String × String)))
    (kvs : List (String × Json))
    (h : emitObjectType E (n + 1) properties indexSignature tags = some (Json.obj kvs))
    (hnd : (properties.map PropertyNode.name).Nodup) :
    schemaPropNames kvs = properties.map PropertyNode.name := by
  obtain ⟨pairs, hnames, hshape⟩ :=
    emitObjectType_shape E n properties indexSignature tags kvs h
  have hndpairs : (([] : List (String × Json)).map Prod.fst ++ pairs.map Prod.fst).Nodup := by
    simp only [List.map_nil, List.nil_append, hnames]
    exact hnd
  have hpo : (pairs.foldl (fun m kv => jsSet m kv.1 kv.2) []).map Prod.fst
      = pairs.map Prod.fst := by
    have hfk := foldl_jsSet_keys pairs [] hndpairs
    simpa using hfk
  have hbase : schemaPropNames (objSchemaBase properties pairs)
      = properties.map PropertyNode.name := by
    rw [objSchemaBase]
    by_cases hE : (pairs.foldl (fun m kv => jsSet m kv.1 kv.2) []).isEmpty
    · rw [if_pos hE]
      have hnil : (pairs.foldl (fun m kv => jsSet m kv.1 kv.2) []) = [] := by
        cases hc : pairs.foldl (fun m kv => jsSet m kv.1 kv.2) [] with
        | nil => rfl
        | cons a l =>
          rw [hc] at hE
          simp [List.isEmpty] at hE
      have hPn : properties.map PropertyNode.name = [] := by
        rw [← hnames, ← hpo, hnil]
        rfl
      rw [hPn]
      split
      · rw [schemaPropNames]
        rw [jsGet_jsSet_other _ _ _ _ (by decide)]
        rfl
      · rfl
    · rw [if_neg hE]
      split
      · rw [schemaPropNames]
        rw [jsGet_jsSet_other _ _ _ _ (by decide), jsGet_jsSet_self]
        show (pairs.foldl (fun m kv => jsSet m kv.1 kv.2) []).map Prod.fst
          = properties.map PropertyNode.name
        rw [hpo, hnames]
      · rw [schemaPropNames]
        rw [jsGet_jsSet_self]
        show (pairs.foldl (fun m kv => jsSet m kv.1 kv.2) []).map Prod.fst
          = properties.map PropertyNode.name
        rw [hpo, hnames]
  rcases hshape with rfl | ⟨v, rfl⟩
  · exact hbase
  · rw [schemaPropNames_jsSet_ap]
    exact hbase

/-- C6: for a declared object type with pairwise-distinct property names
and a statically extractable key set `K`, `Pick` keeps exactly the
properties whose names `K` contains (in declaration order) and `Omit`
keeps exactly the others; when `K ⊆ props(T)`, the schemas' property-name
sets are exactly `K` and `props(T) ∖ K`; and a key argument that is not a
string literal or union of string literals makes both resolve to the base
type's own schema. -/
theorem C6_pick_omit_keys (E : Emitter) (n : Nat) (target keys : TypeNode)
    (K : List String) (props : List PropertyNode)
    (kvsP kvsO : List (String × Json))
    (hK : extractKeyNames keys = some K)
    (hprops : getProperties E.declarations target = some props)
    (hnd : (props.map PropertyNode.name).Nodup)
    (hP : resolvePick E (n + 1) target keys = some (Json.obj kvsP))
    (hO : resolveOmit E (n + 1) target keys = some (Json.obj kvsO)) :
    schemaPropNames kvsP
        = (props.map PropertyNode.name).filter (fun nm => K.contains nm) ∧
      schemaPropNames kvsO
        = (props.map PropertyNode.name).filter (fun nm => ¬ K.contains nm) ∧
      ((∀ k ∈ K, k ∈ props.map PropertyNode.name) → ∀ nm,
        (nm ∈ schemaPropNames kvsP ↔ nm ∈ K) ∧
        (nm ∈ schemaPropNames kvsO ↔ nm ∈ props.map PropertyNode.name ∧ nm ∉ K)) ∧
      (∀ ka, extractKeyNames ka = none →
        resolvePick E (n + 1) target ka = emitType E n target ∧
        resolveOmit E (n + 1) target ka = emitType E n target) := by
  rw [resolvePick, hK] at hP
  dsimp only [] at hP
  rw [hprops] at hP
  dsimp only [] at hP
  rw [resolveOmit, hK] at hO
  dsimp only [] at hO
  rw [hprops] at hO
  dsimp only [] at hO
  cases n with
  | zero => exact Option.noConfusion hP
  | succ m =>
    have hndP : ((props.filter (fun p => K.contains p.name)).map PropertyNode.name).Nodup :=
      List.Nodup.sublist ((List.filter_sublist _).map PropertyNode.name) hnd
    have hndO : ((props.filter (fun p => ¬ K.contains p.name)).map PropertyNode.name).Nodup :=
      List.Nodup.sublist ((List.filter_sublist _).map PropertyNode.name) hnd
    have c1 : schemaPropNames kvsP
        = (props.map PropertyNode.name).filter (fun nm => K.contains nm) :=
      (emitObjectType_propNames E m _ none none kvsP hP hndP).trans
        (map_filter_nameB (fun nm => K.contains nm) props)
    have c2 : schemaPropNames kvsO
        = (props.map PropertyNode.name).filter (fun nm => ¬ K.contains nm) :=
      (emitObjectType_propNames E m _ none none kvsO hO hndO).trans
        (map_filter_nameB (fun nm => ¬ K.contains nm) props)
    refine ⟨c1, c2, ?_, ?_⟩
    · intro hsub nm
      constructor
      · rw [c1]
        simp only [List.mem_filter]
        constructor
        · intro hx
          exact (contains_iff_memS K nm).mp hx.2
        · intro hx
          exact ⟨hsub nm hx, (contains_iff_memS K nm).mpr hx⟩
      · rw [c2]
        simp only [List.mem_filter, decide_eq_true_eq]
        constructor
        · intro hx
          exact ⟨hx.1, fun hmem => hx.2 ((contains_iff_memS K nm).mpr hmem)⟩
        · intro hx
          exact ⟨hx.1, fun hc => hx.2 ((contains_iff_memS K nm).mp hc)⟩
    · intro ka hka
      constructor
      · rw [resolvePick, hka]
      · rw [resolveOmit, hka]

def propsC6 : List PropertyNode :=
  [⟨"a", .primitive "string", false, false, none, none⟩,
   ⟨"b", .primitive "number", false, false, none, none⟩,
   ⟨"c", .primitive "boolean", false, false, none, none⟩]

def EC6 : Emitter :=
  Emitter.make [Declaration.interface "T" none propsC6 none none none true] {}

/-- C6 witness: at the interface `T \x7b a: string; b: number; c: boolean \x7d`
with keys `"a" | "b"`, `Pick` keeps exactly `a` and `b` and `Omit` keeps
exactly `c`. -/
theorem C6_witness :
    schemaPropNames [("type", Json.str "object"),
        ("properties", Json.obj [("a", Json.obj [("type", Json.str "string")]),
          ("b", Json.obj [("type", Json.str "number")])]),
        ("required", Json.arr [Json.str "a", Json.str "b"])] = ["a", "b"] ∧
      schemaPropNames [("type", Json.str "object"),
        ("properties", Json.obj [("c", Json.obj [("type", Json.str "boolean")])]),
        ("required", Json.arr [Json.str "c"])] = ["c"] := by
  have h := C6_pick_omit_keys EC6 2 (TypeNode.reference "T" none)
    (TypeNode.union [TypeNode.literal_string "a", TypeNode.literal_string "b"])
    ["a", "b"] propsC6
    [("type", Json.str "object"),
      ("properties", Json.obj [("a", Json.obj [("type", Json.str "string")]),
        ("b", Json.obj [("type", Json.str "number")])]),
      ("required", Json.arr [Json.str "a", Json.str "b"])]
    [("type", Json.str "object"),
      ("properties", Json.obj [("c", Json.obj [("type", Json.str "boolean")])]),
      ("required", Json.arr [Json.str "c"])]
    rfl rfl (by decide) rfl rfl
  exact ⟨h.1.trans (by rfl), h.2.1.trans (by rfl)⟩

/-! ## C3: transitive self-reference and the emitted root -/

/-- The reference-graph adjacency on emitted defs: `a` points to `b` when
`b` occurs as a `#/$defs/` pointer inside `a`'s emitted schema (a name
absent from the defs has no outgoing edges, matching `canReach`'s
`if (!schema) return false`). -/
def refAdj (defs : List (String × Json)) (a b : String) : Prop :=
  b ∈ refsOfJson ((jsGet defs a).getD Json.null)

/-- Soundness of the DFS: a `true` answer exhibits a `$ref` path. -/
theorem canReach_sound (defs : List (String × Json)) :
    ∀ n : Nat,
      (∀ V s t V', canReachF defs n V s t = some (true, V') →
        Relation.ReflTransGen (refAdj defs) s t) ∧
      (∀ V refs t V', canReachLoopF defs n V refs t = some (true, V') →
        ∃ r ∈ refs, Relation.ReflTransGen (refAdj defs) r t) := by
  intro n
  induction n with
  | zero =>
    constructor
    · intro V s t V' h
      exact Option.noConfusion h
    · intro V refs t V' h
      exact Option.noConfusion h
  | succ m ih =>
    constructor
    · intro V s t V' h
      rw [canReachF] at h
      by_cases hst : s = t
      · subst hst
        exact Relation.ReflTransGen.refl
      · rw [if_neg hst] at h
        by_cases hv : V.contains s
        · rw [if_pos hv] at h
          injection h with h1
          injection h1 with h2 h3
          exact Bool.noConfusion h2
        · rw [if_neg hv] at h
          dsimp only [] at h
          cases hg : jsGet defs s with
          | none =>
            rw [hg] at h
            dsimp only [] at h
            injection h with h1
            injection h1 with h2 h3
            exact Bool.noConfusion h2
          | some schema =>
            rw [hg] at h
            dsimp only [] at h
            obtain ⟨r, hr, hrt⟩ := ih.2 (s :: V) (refsOfJson schema) t V' h
            refine Relation.ReflTransGen.head ?_ hrt
            show r ∈ refsOfJson ((jsGet defs s).getD Json.null)
            rw [hg]
            exact hr
    · intro V refs t V' h
      cases refs with
      | nil =>
        rw [canReachLoopF] at h
        injection h with h1
        injection h1 with h2 h3
        exact Bool.noConfusion h2
      | cons ref rest =>
        rw [canReachLoopF] at h
        by_cases hrt : ref = t
        · refine ⟨ref, List.mem_cons_self _ _, ?_⟩
          rw [hrt]
        · rw [if_neg hrt] at h
          cases hc : canReachF defs m V ref t with
          | none =>
            rw [hc] at h
            exact Option.noConfusion h
          | some p =>
            obtain ⟨bb, v2⟩ := p
            rw [hc] at h
            cases bb with
            | true =>
              exact ⟨ref, List.mem_cons_self _ _, ih.1 V ref t v2 hc⟩
            | false =>
              dsimp only [] at h
              obtain ⟨r, hr, hrt2⟩ := ih.2 v2 rest t V' h
              exact ⟨r, List.mem_cons_of_mem _ hr, hrt2⟩

/-- The new nodes of a finished DFS are closed under the reference
adjacency and never equal the target. -/
def newClosed (defs : List (String × Json)) (t : String) (V V' : List String) : Prop :=
  ∀ v ∈ V', v ∉ V → v ≠ t ∧ ∀ w, refAdj defs v w → w ∈ V'

/-- Completeness invariant of the DFS: a `false` answer returns a
visited superset whose new nodes are adjacency-closed and avoid the
target; the start node (resp. every listed reference) is inside it. -/
theorem canReach_complete (defs : List (String × Json)) :
    ∀ n : Nat,
      (∀ V s t V', canReachF defs n V s t = some (false, V') →
        (∀ x ∈ V, x ∈ V') ∧ s ∈ V' ∧ newClosed defs t V V') ∧
      (∀ V refs t V', canReachLoopF defs n V refs t = some (false, V') →
        (∀ x ∈ V, x ∈ V') ∧ newClosed defs t V V' ∧ ∀ r ∈ refs, r ≠ t ∧ r ∈ V') := by
  intro n
  induction n with
  | zero =>
    constructor
    · intro V s t V' h
      exact Option.noConfusion h
    · intro V refs t V' h
      exact Option.noConfusion h
  | succ m ih =>
    constructor
    · intro V s t V' h
      rw [canReachF] at h
      by_cases hst : s = t
      · rw [if_pos hst] at h
        injection h with h1
        injection h1 with h2 h3
        exact Bool.noConfusion h2
      · rw [if_neg hst] at h
        by_cases hv : V.contains s
        · rw [if_pos hv] at h
          injection h with h1
          injection h1 with h2 h3
          subst h3
          exact ⟨fun x hx => hx, (contains_iff_memS V s).mp hv,
            fun v hv2 hnv => absurd hv2 hnv⟩
        · rw [if_neg hv] at h
          dsimp only [] at h
          cases hg : jsGet defs s with
          | none =>
            rw [hg] at h
            dsimp only [] at h
            injection h with h1
            injection h1 with h2 h3
            subst h3
            refine ⟨fun x hx => List.mem_cons_of_mem _ hx, List.mem_cons_self _ _, ?_⟩
            intro v hv2 hnv
            have hvs : v = s := by
              rcases List.mem_cons.mp hv2 with hh | hh
              · exact hh
              · exact absurd hh hnv
            subst hvs
            refine ⟨hst, ?_⟩
            intro w hw
            have hw2 : w ∈ refsOfJson ((jsGet defs v).getD Json.null) := hw
            rw [hg] at hw2
            exact absurd hw2 (List.not_mem_nil w)
          | some schema =>
            rw [hg] at h
            dsimp only [] at h
            obtain ⟨hmono, hcl, hrefs⟩ := ih.2 (s :: V) (refsOfJson schema) t V' h
            refine ⟨fun x hx => hmono x (List.mem_cons_of_mem _ hx),
              hmono s (List.mem_cons_self _ _), ?_⟩
            intro v hv2 hnv
            by_cases hvs : v = s
            · subst hvs
              refine ⟨hst, ?_⟩
              intro w hw
              have hw2 : w ∈ refsOfJson ((jsGet defs v).getD Json.null) := hw
              rw [hg] at hw2
              exact (hrefs w hw2).2
            · have hnv2 : v ∉ s :: V := by
                intro hmem
                rcases List.mem_cons.mp hmem with hh | hh
                · exact hvs hh
                · exact hnv hh
              exact hcl v hv2 hnv2
    · intro V refs t V' h
      cases refs with
      | nil =>
        rw [canReachLoopF] at h
        injection h with h1
        injection h1 with h2 h3
        subst h3
        exact ⟨fun x hx => hx, fun v hv2 hnv => absurd hv2 hnv,
          fun r hr => absurd hr (List.not_mem_nil r)⟩
      | cons ref rest =>
        rw [canReachLoopF] at h
        by_cases hrt : ref = t
        · rw [if_pos hrt] at h
          injection h with h1
          injection h1 with h2 h3
          exact Bool.noConfusion h2
        · rw [if_neg hrt] at h
          cases hc : canReachF defs m V ref t with
          | none =>
            rw [hc] at h
            exact Option.noConfusion h
          | some p =>
            obtain ⟨bb, v2⟩ := p
            rw [hc] at h
            cases bb with
            | true =>
              dsimp only [] at h
              injection h with h1
              injection h1 with h2 h3
              exact Bool.noConfusion h2
            | false =>
              dsimp only [] at h
              obtain ⟨hm1, hs1, hcl1⟩ := (ih.1 V ref t v2 hc)
              obtain ⟨hm2, hcl2, hrefs2⟩ := ih.2 v2 rest t V' h
              refine ⟨fun x hx => hm2 x (hm1 x hx), ?_, ?_⟩
              · intro v hv2 hnv
                by_cases hvv2 : v ∈ v2
                · obtain ⟨hvt, hadj⟩ := hcl1 v hvv2 hnv
                  exact ⟨hvt, fun w hw => hm2 w (hadj w hw)⟩
                · exact hcl2 v hv2 hvv2
              · intro r hr
                rcases List.mem_cons.mp hr with hh | hh
                · subst hh
                  exact ⟨hrt, hm2 r hs1⟩
                · exact hrefs2 r hh

/-- Completeness of the DFS from an empty visited set: a `false` answer
means no `$ref` path exists. -/
theorem canReachF_false_not_reach (defs : List (String × Json)) (fuel : Nat)
    (s t : String) (V' : List String)
    (h : canReachF defs fuel [] s t = some (false, V')) :
    ¬ Relation.ReflTransGen (refAdj defs) s t := by
  obtain ⟨-, hs, hcl⟩ := (canReach_complete defs fuel).1 [] s t V' h
  intro hrtg
  have hmem : ∀ x, Relation.ReflTransGen (refAdj defs) s x → x ∈ V' := by
    intro x hx
    induction hx with
    | refl => exact hs
    | tail hab hbc ihx => exact (hcl _ ihx (List.not_mem_nil _)).2 _ hbc
  exact (hcl t (hmem t hrtg) (List.not_mem_nil t)).1 rfl

/-- The outer loop of `isTransitivelySelfReferential` answers `true`
exactly when some listed reference reaches the target. -/
theorem isTSRLoop_iff (defs : List (String × Json)) (fuel : Nat) (t : String) :
    ∀ (refs : List String) (b : Bool), isTSRLoop defs fuel t refs = some b →
      (b = true ↔ ∃ r ∈ refs, Relation.ReflTransGen (refAdj defs) r t) := by
  intro refs
  induction refs with
  | nil =>
    intro b h
    rw [isTSRLoop] at h
    injection h with h1
    constructor
    · intro hb
      rw [← h1] at hb
      exact Bool.noConfusion hb
    · rintro ⟨r, hr, -⟩
      exact absurd hr (List.not_mem_nil r)
  | cons ref rest ih =>
    intro b h
    rw [isTSRLoop] at h
    cases hc : canReachF defs fuel [] ref t with
    | none =>
      rw [hc] at h
      exact Option.noConfusion h
    | some p =>
      obtain ⟨bb, v2⟩ := p
      rw [hc] at h
      cases bb with
      | true =>
        dsimp only [] at h
        injection h with h1
        subst h1
        constructor
        · intro _
          exact ⟨ref, List.mem_cons_self _ _, (canReach_sound defs fuel).1 [] ref t v2 hc⟩
        · intro _
          rfl
      | false =>
        dsimp only [] at h
        rw [ih b h]
        constructor
        · rintro ⟨r, hr, hrt⟩
          exact ⟨r, List.mem_cons_of_mem _ hr, hrt⟩
        · rintro ⟨r, hr, hrt⟩
          rcases List.mem_cons.mp hr with hh | hh
          · subst hh
            exact absurd hrt (canReachF_false_not_reach defs fuel r t v2 hc)
          · exact ⟨r, hh, hrt⟩

/-- `isTransitivelySelfReferential` decides transitive self-reference:
`true` exactly when the root reaches itself through at least one edge of
the `$ref` graph (direct or mutual recursion). -/
theorem isTSR_iff (t : String) (defs : List (String × Json)) (b : Bool)
    (h : isTransitivelySelfReferential t defs = some b) :
    b = true ↔ Relation.TransGen (refAdj defs) t t := by
  rw [isTransitivelySelfReferential] at h
  rw [isTSRLoop_iff defs (2 * (allDefsRefs defs).length + 3) t
    (refsOfJson ((jsGet defs t).getD Json.null)) b h]
  rw [Relation.TransGen.head'_iff]
  constructor
  · rintro ⟨r, hr, hrt⟩
    exact ⟨r, hr, hrt⟩
  · rintro ⟨r, hr, hrt⟩
    exact ⟨r, hr, hrt⟩

/-- C3: with a `rootType` R that is nonempty and present among the
emitted defs, `isTransitivelySelfReferential` answers `true` exactly when
R reaches itself through the directed `$ref` graph (direct or mutual
recursion); in that case `emit` keeps R inside `$defs` and the root
schema is `\x7b $ref: "#/$defs/<R>" \x7d`, and otherwise R's own schema is
inlined at the root (every member but `$schema`/`$defs` is R's) with R
deleted from `$defs`. -/
theorem C3_selfref_root (E : Emitter) (fuel : Nat) (defs : List (String × Json))
    (b : Bool) (kvs : List (String × Json))
    (hdefs : E.declarations.mapM (fun kv => do
        let s ← emitDeclaration E fuel kv.2
        pure (kv.1, s)) = some defs)
    (hne : E.options.rootType ≠ "")
    (hpresent : (jsGet defs E.options.rootType).isSome = true)
    (hb : isTransitivelySelfReferential E.options.rootType defs = some b)
    (hemit : E.emit fuel = some (Json.obj kvs)) :
    (b = true ↔
        Relation.TransGen (refAdj defs) E.options.rootType E.options.rootType) ∧
      (b = true →
        jsGet kvs "$ref" = some (.str ("#/$defs/" ++ E.options.rootType)) ∧
        jsGet kvs "$defs" = some (.obj defs)) ∧
      (b = false → ∀ rootkvs, jsGet defs E.options.rootType = some (Json.obj rootkvs) →
        (∀ k, k ≠ "$schema" → k ≠ "$defs" → jsGet kvs k = jsGet rootkvs k) ∧
        (jsDelete defs E.options.rootType ≠ [] →
          jsGet kvs "$defs" = some (.obj (jsDelete defs E.options.rootType)))) := by
  rw [Emitter.emit] at hemit
  rw [option_bind_ok] at hemit
  obtain ⟨defs0, hdefs0, hemit⟩ := hemit
  rw [hdefs] at hdefs0
  injection hdefs0 with hd
  subst hd
  dsimp only [] at hemit
  rw [if_pos ⟨hne, hpresent⟩] at hemit
  rw [option_bind_ok] at hemit
  obtain ⟨isr, hisr, hemit⟩ := hemit
  rw [hb] at hisr
  injection hisr with hisr2
  subst hisr2
  refine ⟨isTSR_iff _ _ b hb, ?_, ?_⟩
  · intro hbt
    rw [if_pos hbt] at hemit
    simp only [Option.pure_def, Option.some.injEq] at hemit
    obtain rfl : kvs = _ := (Json.obj.inj hemit.symm)
    constructor
    · rw [jsGet_jsSet_other _ _ _ _ (by decide)]
      split
      · rw [jsGet_jsSet_other _ _ _ _ (by decide)]
        rfl
      · rfl
    · rw [jsGet_jsSet_self]
  · intro hbf rootkvs hroot
    rw [hbf] at hemit
    rw [if_neg Bool.false_ne_true] at hemit
    rw [hroot] at hemit
    simp only [Option.getD_some] at hemit
    simp only [Option.pure_def, Option.some.injEq] at hemit
    obtain rfl : kvs = _ := (Json.obj.inj hemit.symm)
    constructor
    · intro k hks hkd
      split
      · split
        · rw [jsGet_jsSet_other _ _ _ _ hks]
        · rfl
      · rw [jsGet_jsSet_other _ _ _ _ hkd]
        split
        · rw [jsGet_jsSet_other _ _ _ _ hks]
        · rfl
    · intro hne2
      have hEmp : (jsDelete defs E.options.rootType).isEmpty = false := by
        cases hdd : jsDelete defs E.options.rootType with
        | nil => exact absurd hdd hne2
        | cons a l => rfl
      have hnotEmp : ¬ ((jsDelete defs E.options.rootType).isEmpty = true) := by
        rw [hEmp]
        exact Bool.false_ne_true
      rw [if_neg hnotEmp]
      rw [jsGet_jsSet_self]

def C3decls : List Declaration :=
  [Declaration.interface "T" none
    [⟨"id", .primitive "string", false, false, none, none⟩,
     ⟨"children", .array (.reference "T" none), false, false, none, none⟩]
    none none none true]

def C3E : Emitter :=
  Emitter.make C3decls {includeSchema := some false, rootType := some "T"}

def C3defsLit : List (String × Json) :=
  [("T", Json.obj [("type", Json.str "object"),
    ("properties", Json.obj [
      ("id", Json.obj [("type", Json.str "string")]),
      ("children", Json.obj [("type", Json.str "array"),
        ("items", Json.obj [("$ref", Json.str "#/$defs/T")])])]),
    ("required", Json.arr [Json.str "id", Json.str "children"])])]

/-- C3 witness: the recursive interface
`T \x7b id: string; children: T[] \x7d` as root emits a `$ref` root with
`T` kept inside `$defs`. -/
theorem C3_witness :
    jsGet [("$ref", Json.str "#/$defs/T"), ("$defs", Json.obj C3defsLit)] "$ref"
        = some (Json.str ("#/$defs/" ++ C3E.options.rootType)) ∧
      jsGet [("$ref", Json.str "#/$defs/T"), ("$defs", Json.obj C3defsLit)] "$defs"
        = some (Json.obj C3defsLit) := by
  exact (C3_selfref_root C3E 64 C3defsLit true
    [("$ref", Json.str "#/$defs/T"), ("$defs", Json.obj C3defsLit)]
    rfl (by decide) rfl rfl rfl).2.1 rfl
